import Mathlib

/-!
# exWS2812: colour encoding and strip transmission

A shallow embedding of `src/exWS2812.h`.  A `byte` is a natural number below
256; every narrowing store is written with an explicit `% 256`, the 16-bit
product of `dim` with `% 65536`, and a `uint32_t` argument with `% 2 ^ 32`.
-/

namespace ExWS2812

/-! ## WS2812Color -/

/-- The three payload bytes of `WS2812Color`, in the order of the anonymous
struct of the union: `g`, `r`, `b`.  The default member initialiser
`bytes[3] = {0, 0, 0}` is the default value of each field. -/
structure WS2812Color where
  g : Nat := 0
  r : Nat := 0
  b : Nat := 0
  deriving DecidableEq, Repr

namespace WS2812Color

/-- Read of `bytes[i]`: the array member of the union overlays `g`, `r`, `b`
at offsets 0, 1, 2. -/
def getByte (c : WS2812Color) (i : Nat) : Nat :=
  if i = 0 then c.g else if i = 1 then c.r else if i = 2 then c.b else 0

/-- Write of `bytes[i] = v`, stored as a byte. -/
def setByte (c : WS2812Color) (i : Nat) (v : Nat) : WS2812Color :=
  if i = 0 then { c with g := v % 256 }
  else if i = 1 then { c with r := v % 256 }
  else if i = 2 then { c with b := v % 256 }
  else c

/-- The expression `static_cast<uint16_t>(bytes[i]) * brightness / 256`: the
product is taken in 16-bit unsigned arithmetic. -/
def scale (v brightness : Nat) : Nat :=
  ((v % 65536) * brightness) % 65536 / 256

/-- The loop `for (byte i = 0; i < 3; ++i)` of `dim`, entered at counter `i`. -/
def dimLoop (brightness : Nat) (i : Nat) (c : WS2812Color) : WS2812Color :=
  if i < 3 then
    dimLoop brightness ((i + 1) % 256) (c.setByte i (scale (c.getByte i) brightness))
  else c
termination_by 3 - i
decreasing_by omega

/-- Method `void dim(byte brightness)`: the receiver after the call. -/
def dim (c : WS2812Color) (brightness : Nat) : WS2812Color :=
  dimLoop brightness 0 c

/-- Method `WS2812Color dimmer(byte brightness) const` in state-passing form:
the receiver after the call, and the returned colour. -/
def dimmerCall (self : WS2812Color) (brightness : Nat) : WS2812Color × WS2812Color :=
  let c := self
  let c := c.dim brightness
  (self, c)

/-- The value returned by `dimmer`. -/
def dimmer (self : WS2812Color) (brightness : Nat) : WS2812Color :=
  (dimmerCall self brightness).2

/-- Constructor `WS2812Color(byte _r, byte _g, byte _b)`. -/
def mk3 (_r _g _b : Nat) : WS2812Color :=
  let c : WS2812Color := {}
  let c := { c with g := _g }
  let c := { c with r := _r }
  let c := { c with b := _b }
  c

/-- Constructor `WS2812Color(byte brightness, byte _r, byte _g, byte _b)`. -/
def mk4 (brightness _r _g _b : Nat) : WS2812Color :=
  let c : WS2812Color := {}
  let c := { c with g := _g }
  let c := { c with r := _r }
  let c := { c with b := _b }
  c.dim brightness

/-- Dereference of the iterator `rgb` of the initializer list, held as an
index into the list (`list.begin()` is index 0). -/
def deref (list : List Nat) (rgb : Int) : Nat :=
  list.getD rgb.toNat 0

/-- Constructor `WS2812Color(std::initializer_list<byte> list)`. -/
def ofList (list : List Nat) : WS2812Color :=
  let c : WS2812Color := {}
  if list.length = 0 then c else
  let rgb : Int := (list.length : Int) - 1
  let start : Int := 0 - 1
  let c := { c with b := deref list rgb }
  let rgb := rgb - 1
  if rgb = start then c else
  let c := { c with g := deref list rgb }
  let rgb := rgb - 1
  if rgb = start then c else
  let c := { c with r := deref list rgb }
  let rgb := rgb - 1
  if rgb = start then c else
  if deref list rgb ≠ 0 then c.dim (deref list rgb) else c

/-- Byte `bt[i]` of a `uint32_t` seen through `reinterpret_cast<byte*>` on the
little-endian AVR. -/
def bt (rgb : Nat) (i : Nat) : Nat :=
  (rgb % 2 ^ 32) / 256 ^ i % 256

/-- Constructor `WS2812Color(uint32_t rgb)`. -/
def ofPacked (rgb : Nat) : WS2812Color :=
  let c : WS2812Color := {}
  let c := { c with g := bt rgb 1 }
  let c := { c with r := bt rgb 2 }
  let c := { c with b := bt rgb 0 }
  if bt rgb 3 ≠ 0 then c.dim (bt rgb 3) else c

/-- `const WS2812Color WS2812Color::black = 0`. -/
def black : WS2812Color := ofPacked 0
/-- `const WS2812Color& WS2812Color::off = black`. -/
def off : WS2812Color := black
/-- `const WS2812Color WS2812Color::red = 0xff0000`. -/
def red : WS2812Color := ofPacked 0xff0000
/-- `const WS2812Color WS2812Color::green = 0x00ff00`. -/
def green : WS2812Color := ofPacked 0x00ff00
/-- `const WS2812Color WS2812Color::blue = 0x0000ff`. -/
def blue : WS2812Color := ofPacked 0x0000ff
/-- `const WS2812Color WS2812Color::white = 0xffffff`. -/
def white : WS2812Color := ofPacked 0xffffff

/-- A colour whose three stored bytes are bytes. -/
def WellFormed (c : WS2812Color) : Prop :=
  c.g < 256 ∧ c.r < 256 ∧ c.b < 256

end WS2812Color

/-! ## The machine state seen by the strip -/

/-- The two timing-relevant instructions issued by `commit`: the `sbi` of
`togglePin` and the `_NOP()` delay slot. -/
inductive Instr where
  | sbi
  | nop
  deriving DecidableEq, Repr

/-- One executed instruction, with the global interrupt-enable flag at the
time it ran and the level of the pin latch after it. -/
structure Step where
  instr : Instr
  iflag : Bool
  level : Bool
  deriving DecidableEq, Repr

/-- State of one `WS2812<numLeds, pinPort, pinBit>` object and of the hardware
it touches.  `dataBytes` is the storage of `Color data[numLeds]` seen through
`byte* dataBytes` (three bytes per colour, `g`, `r`, `b`); `sregI` is the
global interrupt-enable bit of `SREG`; `ddrOut` is the data-direction bit of
the pin (true for output); `portBit` is the output latch bit of the pin;
`log` is the instruction stream issued so far. -/
structure Machine where
  dataBytes : List Nat
  sregI : Bool
  ddrOut : Bool
  portBit : Bool
  log : List Step
  deriving DecidableEq, Repr

/-- `static const byte numBytes = numLeds * sizeof(Color)`, with
`sizeof(Color) = 3`, narrowed to a byte. -/
def numBytes (numLeds : Nat) : Nat :=
  (numLeds * 3) % 256

/-- The first `static_assert`: `F_CPU == 8000000 || F_CPU == 16000000`. -/
def SupportedClock (F_CPU : Nat) : Prop :=
  F_CPU = 8000000 ∨ F_CPU = 16000000

/-- The second `static_assert`: `numLeds * sizeof(WS2812Color) < 256`. -/
def LedCountOk (numLeds : Nat) : Prop :=
  numLeds * 3 < 256

/-- The loop of `begin`, entered at counter `i`. -/
def beginLoop (numLeds : Nat) (i : Nat) (m : Machine) : Machine :=
  if i < numBytes numLeds then
    beginLoop numLeds ((i + 1) % 256) { m with dataBytes := m.dataBytes.set i 0 }
  else m
termination_by numBytes numLeds - i
decreasing_by unfold numBytes at *; omega

/-- Method `void begin()`. -/
def begin (numLeds : Nat) (m : Machine) : Machine :=
  beginLoop numLeds 0 m

/-- Method `byte size() const`. -/
def size (numLeds : Nat) : Nat :=
  numLeds

/-- Method `void setColor(byte led, const Color& color)`: `data[led] = color`
copies the three bytes of the colour to offset `3 * led`. -/
def setColor (m : Machine) (led : Nat) (color : WS2812Color) : Machine :=
  { m with dataBytes :=
      ((m.dataBytes.set (3 * led) color.g).set (3 * led + 1) color.r).set (3 * led + 2) color.b }

/-- Method `const Color& getColor(byte led) const`: the colour stored at
offset `3 * led`. -/
def getColor (m : Machine) (led : Nat) : WS2812Color :=
  { g := m.dataBytes.getD (3 * led) 0
    r := m.dataBytes.getD (3 * led + 1) 0
    b := m.dataBytes.getD (3 * led + 2) 0 }

/-- Method `togglePin`: `sbi` on the pin-input register flips the output latch
bit of the pin. -/
def togglePin (m : Machine) : Machine :=
  { m with portBit := !m.portBit,
           log := m.log ++ [{ instr := Instr.sbi, iflag := m.sregI, level := !m.portBit }] }

/-- One `_NOP()`. -/
def nop (m : Machine) : Machine :=
  { m with log := m.log ++ [{ instr := Instr.nop, iflag := m.sregI, level := m.portBit }] }

/-- The branch of `commit` commented `Send a 1`. -/
def sendOne (F_CPU : Nat) (m : Machine) : Machine :=
  if F_CPU = 16000000 then
    m |> togglePin
      |> nop |> nop |> nop
      |> nop |> nop |> nop
      |> nop |> nop |> nop
      |> togglePin
  else if F_CPU = 8000000 then
    m |> togglePin
      |> nop |> nop |> nop |> nop |> nop
      |> togglePin
  else m

/-- The branch of `commit` commented `Send a 0`. -/
def sendZero (F_CPU : Nat) (m : Machine) : Machine :=
  if F_CPU = 16000000 then
    m |> togglePin
      |> nop |> nop |> nop
      |> togglePin
      |> nop |> nop |> nop |> nop |> nop
  else if F_CPU = 8000000 then
    m |> togglePin
      |> nop
      |> togglePin
      |> nop |> nop |> nop |> nop
  else m

/-- The loop `for (byte i = 0; i < 8; ++i, b <<= 1)` of `commit`, entered at
counter `i` with the working copy `b` of the byte. -/
def bitLoop (F_CPU : Nat) (i : Nat) (b : Nat) (m : Machine) : Machine :=
  if i < 8 then
    bitLoop F_CPU ((i + 1) % 256) ((b <<< 1) % 256)
      (if b &&& 128 ≠ 0 then sendOne F_CPU m else sendZero F_CPU m)
  else m
termination_by 8 - i
decreasing_by omega

/-- The loop `for (byte N = 0; N < numBytes; ++N)` of `commit`, entered at
counter `N`. -/
def commitLoop (F_CPU numLeds : Nat) (N : Nat) (m : Machine) : Machine :=
  if N < numBytes numLeds then
    commitLoop F_CPU numLeds ((N + 1) % 256) (bitLoop F_CPU 0 (m.dataBytes.getD N 0) m)
  else m
termination_by numBytes numLeds - N
decreasing_by unfold numBytes at *; omega

/-- Modelled from the spec: `ATOMIC_BLOCK(ATOMIC_RESTORESTATE)` of
`util/atomic.h`, which is not among the sources.  The interrupt-enable state
is saved, interrupts are disabled for the duration of the block, and the saved
state is put back when the block is left. -/
def atomicBlockRestoreState (body : Machine → Machine) (m : Machine) : Machine :=
  let sreg_save := m.sregI
  let m := { m with sregI := false }
  let m := body m
  { m with sregI := sreg_save }

/-- Method `void commit() const`. -/
def commit (F_CPU numLeds : Nat) (m : Machine) : Machine :=
  atomicBlockRestoreState (commitLoop F_CPU numLeds 0) m

/-! ## Vocabulary of the statements -/

/-- The steps a run from `m` to `m2` added to the instruction stream. -/
def emitted (m m2 : Machine) : List Step :=
  m2.log.drop m.log.length

/-- The bits of a byte, most significant first: entry `k` is bit `7 - k`. -/
def byteBits (v : Nat) : List Bool :=
  (List.range 8).map (fun k => v.testBit (7 - k))

/-- The wire format of a strip of `n` LEDs: for LED 0 up to LED `n - 1`, the
green byte, then the red byte, then the blue byte, each most significant bit
first. -/
def wireBits (n : Nat) (m : Machine) : List Bool :=
  (List.range n).flatMap (fun led =>
    byteBits (getColor m led).g ++ byteBits (getColor m led).r ++ byteBits (getColor m led).b)

/-- The instruction sequence that sends one bit at a clock rate, as written in
the two branches of `commit`. -/
def pulse (F_CPU : Nat) (bit : Bool) : List Instr :=
  if F_CPU = 16000000 then
    if bit then [Instr.sbi] ++ List.replicate 9 Instr.nop ++ [Instr.sbi]
    else [Instr.sbi] ++ List.replicate 3 Instr.nop ++ [Instr.sbi] ++ List.replicate 5 Instr.nop
  else if F_CPU = 8000000 then
    if bit then [Instr.sbi] ++ List.replicate 5 Instr.nop ++ [Instr.sbi]
    else [Instr.sbi] ++ List.replicate 1 Instr.nop ++ [Instr.sbi] ++ List.replicate 4 Instr.nop
  else []

/-- The strip state in which every byte is a byte and the buffer has the size
of `Color data[numLeds]`. -/
def BufferOk (numLeds : Nat) (m : Machine) : Prop :=
  m.dataBytes.length = 3 * numLeds ∧ ∀ v ∈ m.dataBytes, v < 256

/-- The packed 32-bit value `(k << 24) | (r << 16) | (g << 8) | b`. -/
def pack (k r g b : Nat) : Nat :=
  (k <<< 24) ||| (r <<< 16) ||| (g <<< 8) ||| b

/-- Execution of a list of instructions, one `togglePin` per `sbi` and one
`_NOP()` per `nop`. -/
def exec (is : List Instr) (m : Machine) : Machine :=
  is.foldl (fun st i => match i with
    | Instr.sbi => togglePin st
    | Instr.nop => nop st) m

/-- The log entries written by a list of instructions run with the interrupt
flag `iflag` from pin level `level`. -/
def stepsOf (iflag : Bool) : Bool → List Instr → List Step
  | _, [] => []
  | level, Instr.sbi :: t =>
      { instr := Instr.sbi, iflag := iflag, level := !level } :: stepsOf iflag (!level) t
  | level, Instr.nop :: t =>
      { instr := Instr.nop, iflag := iflag, level := level } :: stepsOf iflag level t

/-- The end-to-end scenario of a 3-LED strip: `begin()`, then index 0 set to
red, index 1 to green, index 2 to blue. -/
def scenarioRGB (m0 : Machine) : Machine :=
  setColor (setColor (setColor (begin 3 m0) 0 WS2812Color.red) 1 WS2812Color.green) 2
    WS2812Color.blue

/-- The instruction stream of one whole transmission of the buffer of `m`:
byte 0 up to byte `numBytes - 1`, each most significant bit first. -/
def frameInstrs (F_CPU numLeds : Nat) (m : Machine) : List Instr :=
  (List.range (numBytes numLeds)).flatMap
    (fun j => (byteBits (m.dataBytes.getD j 0)).flatMap (pulse F_CPU))

/-- The bits of one whole transmission of the buffer of `m`, byte by byte. -/
def frameBits (numLeds : Nat) (m : Machine) : List Bool :=
  (List.range (numBytes numLeds)).flatMap (fun j => byteBits (m.dataBytes.getD j 0))

/-- The number of `_NOP()` delay slots among `steps` that ran while the pin
latch was at `lvl`. -/
def nopsAtLevel (lvl : Bool) (steps : List Step) : Nat :=
  (steps.filter (fun st => st.instr == Instr.nop && st.level == lvl)).length

/-- The number of `togglePin` calls among `steps`. -/
def toggles (steps : List Step) : Nat :=
  (steps.filter (fun st => st.instr == Instr.sbi)).length

/-- The number of `_NOP()` delay slots among `steps`, at either pin level. -/
def delaySlots (steps : List Step) : Nat :=
  (steps.filter (fun st => st.instr == Instr.nop)).length

/-- A two-phase pulse starting from pin level `lvl`: a toggle to the opposite
level held for `first` delay slots, then a toggle back held for `second`. -/
def twoPhase (iflag lvl : Bool) (first second : Nat) : List Step :=
  [{ instr := Instr.sbi, iflag := iflag, level := !lvl }]
    ++ List.replicate first { instr := Instr.nop, iflag := iflag, level := !lvl }
    ++ [{ instr := Instr.sbi, iflag := iflag, level := lvl }]
    ++ List.replicate second { instr := Instr.nop, iflag := iflag, level := lvl }

/-- The steps issued by the `Send a 1` branch run from `m`. -/
def oneSteps (F_CPU : Nat) (m : Machine) : List Step :=
  emitted m (sendOne F_CPU m)

/-- The steps issued by the `Send a 0` branch run from `m`. -/
def zeroSteps (F_CPU : Nat) (m : Machine) : List Step :=
  emitted m (sendZero F_CPU m)

/-! ## Closed forms for the colour operations -/

theorem dim_eq (c : WS2812Color) (k : Nat) :
    c.dim k = ⟨WS2812Color.scale c.g k % 256, WS2812Color.scale c.r k % 256,
      WS2812Color.scale c.b k % 256⟩ := by
  unfold WS2812Color.dim
  rw [WS2812Color.dimLoop]; simp only [show (0:Nat) < 3 by decide, if_true]
  rw [WS2812Color.dimLoop]; simp only [show ((0 + 1) % 256 : Nat) < 3 by decide, if_true]
  rw [WS2812Color.dimLoop]
  simp only [show (((0 + 1) % 256 + 1) % 256 : Nat) < 3 by decide, if_true]
  rw [WS2812Color.dimLoop]
  simp [WS2812Color.getByte, WS2812Color.setByte]

theorem scale_eq (v k : Nat) (hv : v < 256) (hk : k < 256) :
    WS2812Color.scale v k % 256 = v * k / 256 := by
  unfold WS2812Color.scale
  have h : v * k < 65536 := by nlinarith
  rw [Nat.mod_eq_of_lt (by omega : v < 65536), Nat.mod_eq_of_lt h]
  omega

theorem bt_pack (k r g b : Nat) (hk : k < 256) (hr : r < 256) (hg : g < 256) (hb : b < 256) :
    WS2812Color.bt (pack k r g b) 3 = k ∧ WS2812Color.bt (pack k r g b) 2 = r ∧
    WS2812Color.bt (pack k r g b) 1 = g ∧ WS2812Color.bt (pack k r g b) 0 = b := by
  have e : pack k r g b = k * 16777216 + r * 65536 + g * 256 + b := by
    unfold pack
    simp only [Nat.shiftLeft_eq]
    have h3 := Nat.mul_add_lt_is_or (show r < 2 ^ 8 by omega) k
    have e3 : k * 2 ^ 24 ||| r * 2 ^ 16 = 2 ^ 16 * (2 ^ 8 * k ||| r) := by
      rw [← h3]
      have := Nat.mul_add_lt_is_or (show r * 2 ^ 16 < 2 ^ 24 by omega) k
      rw [show k * 2 ^ 24 = 2 ^ 24 * k by ring, ← this]; ring
    have e2 : k * 2 ^ 24 ||| r * 2 ^ 16 ||| g * 2 ^ 8 = 2 ^ 8 * (2 ^ 8 * (2 ^ 8 * k ||| r) ||| g) := by
      rw [e3, ← h3]
      have h2b : 2 ^ 8 * (2 ^ 8 * k + r) ||| g = 2 ^ 8 * (2 ^ 8 * k + r) + g := by
        rw [← Nat.mul_add_lt_is_or (show g < 2 ^ 8 by omega)]
      rw [h2b]
      have := Nat.mul_add_lt_is_or (show g * 2 ^ 8 < 2 ^ 16 by omega) (2 ^ 8 * k + r)
      rw [← this]; ring
    rw [e2, ← h3]
    have h2b : 2 ^ 8 * (2 ^ 8 * k + r) ||| g = 2 ^ 8 * (2 ^ 8 * k + r) + g := by
      rw [← Nat.mul_add_lt_is_or (show g < 2 ^ 8 by omega)]
    rw [h2b]
    rw [← Nat.mul_add_lt_is_or (show b < 2 ^ 8 by omega)]
    ring
  rw [e]
  unfold WS2812Color.bt
  norm_num
  omega

theorem ofPacked_pack_of_ne_zero (k r g b : Nat) (hk : k < 256) (hr : r < 256) (hg : g < 256)
    (hb : b < 256) (h0 : k ≠ 0) :
    WS2812Color.ofPacked (pack k r g b) = WS2812Color.mk4 k r g b := by
  obtain ⟨e3, e2, e1, e0⟩ := bt_pack k r g b hk hr hg hb
  simp [WS2812Color.ofPacked, WS2812Color.mk4, e3, e2, e1, e0, h0]

/-! ## Colour claims -/

/-- C2: for every colour `c` and brightness `k` in [1,255], `dimmer(k)` leaves
the receiver unchanged and returns the colour whose channels are
`floor(channel * k / 256)`; the 16-bit product does not overflow; `dim(k)` in
place gives the same channels. -/
theorem dimmer_scales_each_channel (c : WS2812Color) (k : Nat) (hc : c.WellFormed)
    (hk1 : 1 ≤ k) (hk : k ≤ 255) :
    (c.dimmerCall k).1 = c ∧
    (c.dimmer k).r = c.r * k / 256 ∧ (c.dimmer k).g = c.g * k / 256 ∧
    (c.dimmer k).b = c.b * k / 256 ∧
    (c.r * k < 65536 ∧ c.g * k < 65536 ∧ c.b * k < 65536) ∧
    c.dim k = c.dimmer k := by
  obtain ⟨hg, hr, hb⟩ := hc
  have hk2 : k < 256 := by omega
  refine ⟨rfl, ?_, ?_, ?_, ⟨by nlinarith, by nlinarith, by nlinarith⟩, rfl⟩
  · show (c.dim k).r = _
    rw [dim_eq]; exact scale_eq _ _ hr hk2
  · show (c.dim k).g = _
    rw [dim_eq]; exact scale_eq _ _ hg hk2
  · show (c.dim k).b = _
    rw [dim_eq]; exact scale_eq _ _ hb hk2

theorem dimmer_scales_each_channel_witness :
    ((WS2812Color.mk3 255 192 203).dimmerCall 16).1 = WS2812Color.mk3 255 192 203 ∧
    ((WS2812Color.mk3 255 192 203).dimmer 16).r = 255 * 16 / 256 ∧
    ((WS2812Color.mk3 255 192 203).dimmer 16).g = 192 * 16 / 256 ∧
    ((WS2812Color.mk3 255 192 203).dimmer 16).b = 203 * 16 / 256 ∧
    (255 * 16 < 65536 ∧ 192 * 16 < 65536 ∧ 203 * 16 < 65536) ∧
    (WS2812Color.mk3 255 192 203).dim 16 = (WS2812Color.mk3 255 192 203).dimmer 16 :=
  dimmer_scales_each_channel (WS2812Color.mk3 255 192 203) 16
    (by simp [WS2812Color.WellFormed, WS2812Color.mk3]) (by decide) (by decide)

/-- C3, as stated, fails: `dim(0)` and `dimmer(0)` applied to the colour
(255, 192, 203) give black, not (255, 192, 203). -/
theorem zero_brightness_dim_counterexample :
    (WS2812Color.mk3 255 192 203).dim 0 = WS2812Color.mk3 0 0 0 ∧
    (WS2812Color.mk3 255 192 203).dimmer 0 = WS2812Color.mk3 0 0 0 ∧
    (WS2812Color.mk3 255 192 203).dim 0 ≠ WS2812Color.mk3 255 192 203 ∧
    (WS2812Color.mk3 255 192 203).dimmer 0 ≠ WS2812Color.mk3 255 192 203 := by
  have h : (WS2812Color.mk3 255 192 203).dim 0 = WS2812Color.mk3 0 0 0 := by
    rw [dim_eq]; decide
  have h2 : (WS2812Color.mk3 255 192 203).dimmer 0 = WS2812Color.mk3 0 0 0 := h
  refine ⟨h, h2, ?_, ?_⟩
  · rw [h]; decide
  · rw [h2]; decide

/-- C3, amended: brightness 0 means no scaling on the two guarded paths, the
initializer list `{0, r, g, b}` and the packed value with top byte `0x00`,
which give exactly (r, g, b); `dim(0)` and `dimmer(0)` have no guard and give
black. -/
theorem zero_brightness_guarded_paths (r g b : Nat) (hr : r < 256) (hg : g < 256)
    (hb : b < 256) :
    WS2812Color.ofList [0, r, g, b] = WS2812Color.mk3 r g b ∧
    WS2812Color.ofPacked (pack 0 r g b) = WS2812Color.mk3 r g b ∧
    (WS2812Color.mk3 r g b).dim 0 = WS2812Color.mk3 0 0 0 ∧
    (WS2812Color.mk3 r g b).dimmer 0 = WS2812Color.mk3 0 0 0 := by
  obtain ⟨e3, e2, e1, e0⟩ := bt_pack 0 r g b (by decide) hr hg hb
  have hd : (WS2812Color.mk3 r g b).dim 0 = WS2812Color.mk3 0 0 0 := by
    rw [dim_eq]; simp [WS2812Color.scale, WS2812Color.mk3]
  refine ⟨?_, ?_, hd, hd⟩
  · simp [WS2812Color.ofList, WS2812Color.deref, WS2812Color.mk3]
  · simp [WS2812Color.ofPacked, WS2812Color.mk3, e3, e2, e1, e0]

theorem zero_brightness_guarded_paths_witness :
    WS2812Color.ofList [0, 255, 192, 203] = WS2812Color.mk3 255 192 203 ∧
    WS2812Color.ofPacked (pack 0 255 192 203) = WS2812Color.mk3 255 192 203 ∧
    (WS2812Color.mk3 255 192 203).dim 0 = WS2812Color.mk3 0 0 0 ∧
    (WS2812Color.mk3 255 192 203).dimmer 0 = WS2812Color.mk3 0 0 0 :=
  zero_brightness_guarded_paths 255 192 203 (by decide) (by decide) (by decide)

/-- C4 at the failing input: with brightness 0 the four-argument constructor
gives black while the packed value `(0 << 24) | (255 << 16) | (192 << 8) | 203`
gives (255, 192, 203), so the two paths differ. -/
theorem packed_and_four_argument_differ_at_zero :
    WS2812Color.mk4 0 255 192 203 = WS2812Color.mk3 0 0 0 ∧
    WS2812Color.ofPacked (pack 0 255 192 203) = WS2812Color.mk3 255 192 203 ∧
    WS2812Color.ofPacked (pack 0 255 192 203) ≠ WS2812Color.mk4 0 255 192 203 := by
  have h4 : WS2812Color.mk4 0 255 192 203 = WS2812Color.mk3 0 0 0 := by
    show (WS2812Color.mk3 255 192 203).dim 0 = _
    rw [dim_eq]; decide
  have hp : WS2812Color.ofPacked (pack 0 255 192 203) = WS2812Color.mk3 255 192 203 := by
    decide
  refine ⟨h4, hp, ?_⟩
  rw [h4, hp]; decide

/-- C5: for every 32-bit `v`, `WS2812Color(v)` takes red from bits 23..16,
green from bits 15..8 and blue from bits 7..0; a nonzero top byte `k` scales
each channel to `floor(channel * k / 256)` and a zero top byte keeps them; the
value `0x10FFFFFF` stored in a 1-LED strip reads back as (15, 15, 15). -/
theorem packed_value_decoding (v : Nat) (hv : v < 2 ^ 32) :
    (v / 2 ^ 24 % 256 ≠ 0 →
      WS2812Color.ofPacked v =
        WS2812Color.mk3 ((v / 2 ^ 16 % 256) * (v / 2 ^ 24 % 256) / 256)
          ((v / 2 ^ 8 % 256) * (v / 2 ^ 24 % 256) / 256)
          ((v % 256) * (v / 2 ^ 24 % 256) / 256)) ∧
    (v / 2 ^ 24 % 256 = 0 →
      WS2812Color.ofPacked v =
        WS2812Color.mk3 (v / 2 ^ 16 % 256) (v / 2 ^ 8 % 256) (v % 256)) ∧
    (∀ m : Machine, m.dataBytes.length = 3 →
      getColor (setColor m 0 (WS2812Color.ofPacked 0x10FFFFFF)) 0 = WS2812Color.mk3 15 15 15) := by
  have b3 : WS2812Color.bt v 3 = v / 2 ^ 24 % 256 := by
    unfold WS2812Color.bt; rw [Nat.mod_eq_of_lt hv]; norm_num
  have b2 : WS2812Color.bt v 2 = v / 2 ^ 16 % 256 := by
    unfold WS2812Color.bt; rw [Nat.mod_eq_of_lt hv]; norm_num
  have b1 : WS2812Color.bt v 1 = v / 2 ^ 8 % 256 := by
    unfold WS2812Color.bt; rw [Nat.mod_eq_of_lt hv]; norm_num
  have b0 : WS2812Color.bt v 0 = v % 256 := by
    unfold WS2812Color.bt; rw [Nat.mod_eq_of_lt hv]; norm_num
  refine ⟨?_, ?_, ?_⟩
  · intro hk
    have hk2 : v / 2 ^ 24 % 256 < 256 := Nat.mod_lt _ (by decide)
    simp only [WS2812Color.ofPacked, b3, b2, b1, b0, ne_eq, hk, not_false_eq_true, if_true]
    rw [dim_eq]
    simp only [WS2812Color.mk3]
    rw [scale_eq _ _ (Nat.mod_lt _ (by decide)) hk2, scale_eq _ _ (Nat.mod_lt _ (by decide)) hk2,
      scale_eq _ _ (Nat.mod_lt _ (by decide)) hk2]
  · intro hk
    simp only [WS2812Color.ofPacked, b3, b2, b1, b0, hk, WS2812Color.mk3]
    simp
  · intro m hm
    have hc : WS2812Color.ofPacked 0x10FFFFFF = WS2812Color.mk3 15 15 15 := by
      have e3 : WS2812Color.bt 0x10FFFFFF 3 = 16 := by decide
      have e2 : WS2812Color.bt 0x10FFFFFF 2 = 255 := by decide
      have e1 : WS2812Color.bt 0x10FFFFFF 1 = 255 := by decide
      have e0 : WS2812Color.bt 0x10FFFFFF 0 = 255 := by decide
      simp only [WS2812Color.ofPacked, e3, e2, e1, e0]
      rw [if_pos (by decide), dim_eq]; decide
    rw [hc]
    match m, hm with
    | ⟨[x, y, z], _, _, _, _⟩, _ => rfl

theorem packed_value_decoding_witness :
    (0x10FFFFFF / 2 ^ 24 % 256 ≠ 0 →
      WS2812Color.ofPacked 0x10FFFFFF =
        WS2812Color.mk3 ((0x10FFFFFF / 2 ^ 16 % 256) * (0x10FFFFFF / 2 ^ 24 % 256) / 256)
          ((0x10FFFFFF / 2 ^ 8 % 256) * (0x10FFFFFF / 2 ^ 24 % 256) / 256)
          ((0x10FFFFFF % 256) * (0x10FFFFFF / 2 ^ 24 % 256) / 256)) ∧
    (0x10FFFFFF / 2 ^ 24 % 256 = 0 →
      WS2812Color.ofPacked 0x10FFFFFF =
        WS2812Color.mk3 (0x10FFFFFF / 2 ^ 16 % 256) (0x10FFFFFF / 2 ^ 8 % 256)
          (0x10FFFFFF % 256)) ∧
    (∀ m : Machine, m.dataBytes.length = 3 →
      getColor (setColor m 0 (WS2812Color.ofPacked 0x10FFFFFF)) 0 = WS2812Color.mk3 15 15 15) :=
  packed_value_decoding 0x10FFFFFF (by decide)

/-- C6: the colour built by `WS2812Color(r, g, b)` reads back through its `r`,
`g`, `b` members as (r, g, b), unscaled, while its stored bytes are in the
order green, red, blue. -/
theorem three_argument_constructor_reads_back (r g b : Nat) :
    (WS2812Color.mk3 r g b).r = r ∧ (WS2812Color.mk3 r g b).g = g ∧
    (WS2812Color.mk3 r g b).b = b ∧
    (WS2812Color.mk3 r g b).getByte 0 = g ∧ (WS2812Color.mk3 r g b).getByte 1 = r ∧
    (WS2812Color.mk3 r g b).getByte 2 = b :=
  ⟨rfl, rfl, rfl, rfl, rfl, rfl⟩

/-! ## The colour buffer -/

theorem getD_set (l : List Nat) (a j x d : Nat) :
    (l.set a x).getD j d = if a = j ∧ a < l.length then x else l.getD j d := by
  simp only [List.getD_eq_getElem?_getD, List.getElem?_set]
  by_cases h : a = j
  · subst h
    by_cases h2 : a < l.length
    · simp [h2]
    · simp [h2]
      rw [List.getElem?_eq_none (by omega)]
      rfl
  · simp [h]

/-- C7: on a strip of `n` LEDs, for every valid index `i` and colour `c`,
`getColor(i)` after `setColor(i, c)` is `c`, and every other valid index reads
what it read before. -/
theorem setColor_then_getColor (n : Nat) (m : Machine) (i : Nat) (c : WS2812Color)
    (hlen : m.dataBytes.length = 3 * n) (hi : i < n) :
    getColor (setColor m i c) i = c ∧
    ∀ j, j < n → j ≠ i → getColor (setColor m i c) j = getColor m j := by
  constructor
  · cases c
    simp only [getColor, setColor, getD_set, List.length_set]
    simp
    omega
  · intro j hj hji
    simp only [getColor, setColor, getD_set, List.length_set]
    have h1 : ¬ (3 * i + 2 = 3 * j) := by omega
    have h2 : ¬ (3 * i + 1 = 3 * j) := by omega
    have h3 : ¬ (3 * i = 3 * j) := by omega
    have h4 : ¬ (3 * i + 2 = 3 * j + 1) := by omega
    have h5 : ¬ (3 * i + 1 = 3 * j + 1) := by omega
    have h6 : ¬ (3 * i = 3 * j + 1) := by omega
    have h7 : ¬ (3 * i + 2 = 3 * j + 2) := by omega
    have h8 : ¬ (3 * i + 1 = 3 * j + 2) := by omega
    have h9 : ¬ (3 * i = 3 * j + 2) := by omega
    simp [h1, h2, h3, h4, h5, h6, h7, h8, h9]

theorem setColor_then_getColor_witness :
    getColor (setColor ⟨[1, 2, 3, 4, 5, 6], true, false, false, []⟩ 1 (WS2812Color.mk3 9 8 7)) 1
      = WS2812Color.mk3 9 8 7 ∧
    ∀ j, j < 2 → j ≠ 1 →
      getColor (setColor ⟨[1, 2, 3, 4, 5, 6], true, false, false, []⟩ 1 (WS2812Color.mk3 9 8 7)) j
        = getColor ⟨[1, 2, 3, 4, 5, 6], true, false, false, []⟩ j :=
  setColor_then_getColor 2 ⟨[1, 2, 3, 4, 5, 6], true, false, false, []⟩ 1 (WS2812Color.mk3 9 8 7)
    (by decide) (by decide)

theorem beginLoop_eq (n : Nat) :
    ∀ (d i : Nat) (m : Machine), numBytes n - i = d → i ≤ numBytes n →
      m.dataBytes.length = numBytes n →
      beginLoop n i m =
        { m with dataBytes := m.dataBytes.take i ++ List.replicate (numBytes n - i) 0 } := by
  have hnb : numBytes n < 256 := Nat.mod_lt _ (by decide)
  intro d
  induction d with
  | zero =>
    intro i m hd hi hlen
    rw [beginLoop, if_neg (by omega)]
    have : numBytes n - i = 0 := hd
    rw [this, List.take_of_length_le (by omega)]
    simp
  | succ d ih =>
    intro i m hd hi hlen
    rw [beginLoop, if_pos (by omega)]
    have e : (i + 1) % 256 = i + 1 := Nat.mod_eq_of_lt (by omega)
    rw [e, ih (i + 1) _ (by omega) (by omega) (by simpa using hlen)]
    have hil : i < m.dataBytes.length := by omega
    congr 1
    show (m.dataBytes.set i 0).take (i + 1) ++ _ = _
    have hA : (m.dataBytes.set i 0).take (i + 1) = m.dataBytes.take i ++ [0] := by
      rw [List.take_succ, List.getElem?_set_self hil, List.set_eq_take_append_cons_drop,
        if_pos hil, List.take_left' (by simp; omega)]
      rfl
    have hR : numBytes n - i = (numBytes n - (i + 1)) + 1 := by omega
    rw [hA, hR, List.replicate_succ]
    simp

theorem numBytes_eq (n : Nat) (hn : LedCountOk n) : numBytes n = 3 * n := by
  unfold LedCountOk at hn
  unfold numBytes
  omega

theorem begin_eq (n : Nat) (m : Machine) (hn : LedCountOk n)
    (hlen : m.dataBytes.length = 3 * n) :
    begin n m = { m with dataBytes := List.replicate (3 * n) 0 } := by
  have e := numBytes_eq n hn
  unfold begin
  rw [beginLoop_eq n (numBytes n) 0 m (by omega) (by omega) (by omega), e]
  simp

theorem beginLoop_frame (n : Nat) (i : Nat) (m : Machine) :
    (beginLoop n i m).ddrOut = m.ddrOut ∧ (beginLoop n i m).sregI = m.sregI ∧
    (beginLoop n i m).portBit = m.portBit ∧ (beginLoop n i m).log = m.log := by
  induction i, m using beginLoop.induct n with
  | case1 i m h ih =>
    rw [beginLoop, if_pos h]
    exact ih
  | case2 i m h =>
    rw [beginLoop, if_neg h]
    exact ⟨rfl, rfl, rfl, rfl⟩

theorem black_eq : WS2812Color.black = ⟨0, 0, 0⟩ := by decide

/-- C8: for every LED count `n` with `3 * n < 256` and every prior buffer
contents, `begin()` leaves all `3 * n` buffer bytes zero, every LED reads back
as black, and a second `begin()` changes nothing. -/
theorem begin_clears_buffer (n : Nat) (m : Machine) (hn : LedCountOk n)
    (hlen : m.dataBytes.length = 3 * n) :
    (begin n m).dataBytes = List.replicate (3 * n) 0 ∧
    (∀ led, led < n → getColor (begin n m) led = WS2812Color.black ∧
      getColor (begin n m) led = WS2812Color.mk3 0 0 0) ∧
    begin n (begin n m) = begin n m := by
  have e := begin_eq n m hn hlen
  refine ⟨by rw [e], ?_, ?_⟩
  · intro led hled
    have hb : getColor (begin n m) led = ⟨0, 0, 0⟩ := by
      rw [e]
      simp only [getColor, List.getD_eq_getElem?_getD, List.getElem?_replicate]
      rw [if_pos (by omega), if_pos (by omega), if_pos (by omega)]
      rfl
    exact ⟨by rw [hb, black_eq], hb⟩
  · rw [begin_eq n (begin n m) hn (by rw [e]; simp), e]

theorem begin_clears_buffer_witness :
    LedCountOk 85 ∧
    (begin 85 ⟨List.replicate 255 170, true, false, true, []⟩).dataBytes
      = List.replicate (3 * 85) 0 ∧
    (∀ led, led < 85 →
      getColor (begin 85 ⟨List.replicate 255 170, true, false, true, []⟩) led
        = WS2812Color.black ∧
      getColor (begin 85 ⟨List.replicate 255 170, true, false, true, []⟩) led
        = WS2812Color.mk3 0 0 0) ∧
    begin 85 (begin 85 ⟨List.replicate 255 170, true, false, true, []⟩)
      = begin 85 ⟨List.replicate 255 170, true, false, true, []⟩ :=
  ⟨by unfold LedCountOk; decide,
   begin_clears_buffer 85 ⟨List.replicate 255 170, true, false, true, []⟩
    (by unfold LedCountOk; decide) (List.length_replicate 255 170)⟩

/-- C9 at the failing input: on a 1-LED strip whose pin is configured as an
input, `begin()` clears the buffer and leaves the pin an input. -/
theorem begin_leaves_pin_direction_input :
    (begin 1 ⟨[7, 7, 7], true, false, false, []⟩).ddrOut = false ∧
    begin 1 ⟨[7, 7, 7], true, false, false, []⟩ = ⟨[0, 0, 0], true, false, false, []⟩ := by
  have e := begin_eq 1 ⟨[7, 7, 7], true, false, false, []⟩ (by unfold LedCountOk; decide) rfl
  rw [e]
  exact ⟨rfl, rfl⟩

/-! ## Transmission -/

theorem exec_append (a b : List Instr) (m : Machine) :
    exec (a ++ b) m = exec b (exec a m) := by
  simp [exec, List.foldl_append]

theorem exec_frame (is : List Instr) :
    ∀ m : Machine, (exec is m).dataBytes = m.dataBytes ∧ (exec is m).sregI = m.sregI ∧
      (exec is m).ddrOut = m.ddrOut := by
  induction is with
  | nil => intro m; exact ⟨rfl, rfl, rfl⟩
  | cons i t ih =>
    intro m
    cases i
    · exact ih (togglePin m)
    · exact ih (nop m)

theorem exec_log (is : List Instr) :
    ∀ m : Machine, (exec is m).log = m.log ++ stepsOf m.sregI m.portBit is := by
  induction is with
  | nil => intro m; simp [exec, stepsOf]
  | cons i t ih =>
    intro m
    cases i
    · have := ih (togglePin m)
      simp only [exec, List.foldl_cons] at this ⊢
      rw [this]
      simp [togglePin, stepsOf]
    · have := ih (nop m)
      simp only [exec, List.foldl_cons] at this ⊢
      rw [this]
      simp [nop, stepsOf]

theorem stepsOf_instr (f : Bool) (is : List Instr) :
    ∀ lvl : Bool, (stepsOf f lvl is).map Step.instr = is := by
  induction is with
  | nil => intro lvl; rfl
  | cons i t ih =>
    intro lvl
    cases i <;> simp [stepsOf, ih]

theorem stepsOf_iflag (f : Bool) (is : List Instr) :
    ∀ lvl : Bool, ∀ st ∈ stepsOf f lvl is, st.iflag = f := by
  induction is with
  | nil => intro lvl st h; simp [stepsOf] at h
  | cons i t ih =>
    intro lvl st h
    cases i
    · simp only [stepsOf, List.mem_cons] at h
      rcases h with h | h
      · rw [h]
      · exact ih _ st h
    · simp only [stepsOf, List.mem_cons] at h
      rcases h with h | h
      · rw [h]
      · exact ih _ st h

theorem sendOne_eq (F : Nat) (m : Machine) : sendOne F m = exec (pulse F true) m := by
  unfold sendOne pulse
  by_cases h16 : F = 16000000
  · simp [h16, exec, List.replicate]
  · by_cases h8 : F = 8000000
    · simp [h8, exec, List.replicate]
    · simp [h16, h8, exec]

theorem sendZero_eq (F : Nat) (m : Machine) : sendZero F m = exec (pulse F false) m := by
  unfold sendZero pulse
  by_cases h16 : F = 16000000
  · simp [h16, exec, List.replicate]
  · by_cases h8 : F = 8000000
    · simp [h8, exec, List.replicate]
    · simp [h16, h8, exec]

theorem and_128_ne_zero (b : Nat) : (b &&& 128 ≠ 0) ↔ b.testBit 7 = true := by
  constructor
  · intro h
    by_contra hb
    apply h
    apply Nat.eq_of_testBit_eq
    intro i
    rw [Nat.testBit_and, show (128 : Nat) = 2 ^ 7 by norm_num, Nat.testBit_two_pow]
    by_cases hi : 7 = i
    · subst hi; simp [hb]
    · simp [hi]
  · intro h h0
    have := congrArg (fun x => Nat.testBit x 7) h0
    simp only [Nat.testBit_and, h, show (128 : Nat) = 2 ^ 7 by norm_num,
      Nat.testBit_two_pow_self] at this
    simp at this

theorem testBit_shift (b j : Nat) (hj : j < 7) :
    ((b <<< 1) % 256).testBit (j + 1) = b.testBit j := by
  rw [show (256 : Nat) = 2 ^ 8 by norm_num, Nat.testBit_mod_two_pow, Nat.testBit_succ,
    Nat.shiftLeft_eq]
  simp
  omega

theorem bitLoop_eq (F : Nat) :
    ∀ (d i b : Nat) (m : Machine), 8 - i = d → i ≤ 8 →
      bitLoop F i b m =
        exec (((List.range d).map (fun k => b.testBit (7 - k))).flatMap (pulse F)) m := by
  intro d
  induction d with
  | zero =>
    intro i b m hd hi
    rw [bitLoop, if_neg (by omega)]
    rfl
  | succ d ih =>
    intro i b m hd hi
    rw [bitLoop, if_pos (by omega)]
    have e : (i + 1) % 256 = i + 1 := Nat.mod_eq_of_lt (by omega)
    rw [e, ih (i + 1) _ _ (by omega) (by omega)]
    have hm : (if b &&& 128 ≠ 0 then sendOne F m else sendZero F m)
        = exec (pulse F (b.testBit 7)) m := by
      by_cases h : b.testBit 7 = true
      · rw [if_pos ((and_128_ne_zero b).2 h), h, sendOne_eq]
      · rw [if_neg (fun hc => h ((and_128_ne_zero b).1 hc)), sendZero_eq]
        simp only [Bool.not_eq_true] at h
        rw [h]
    rw [hm, List.range_succ_eq_map, List.map_cons, List.flatMap_cons, exec_append]
    congr 2
    rw [List.map_map]
    apply List.map_congr_left
    intro k hk
    have hk2 : k < d := List.mem_range.1 hk
    show ((b <<< 1) % 256).testBit (7 - k) = b.testBit (7 - (k + 1))
    have := testBit_shift b (7 - (k + 1)) (by omega)
    rw [show 7 - (k + 1) + 1 = 7 - k by omega] at this
    exact this

theorem sendByte_eq (F b : Nat) (m : Machine) :
    bitLoop F 0 b m = exec ((byteBits b).flatMap (pulse F)) m :=
  bitLoop_eq F 8 0 b m rfl (by decide)

theorem commitLoop_eq (F n : Nat) :
    ∀ (d N : Nat) (m : Machine), numBytes n - N = d → N ≤ numBytes n →
      commitLoop F n N m =
        exec ((List.range' N d).flatMap
          (fun j => (byteBits (m.dataBytes.getD j 0)).flatMap (pulse F))) m := by
  have hnb : numBytes n < 256 := Nat.mod_lt _ (by decide)
  intro d
  induction d with
  | zero =>
    intro N m hd hN
    rw [commitLoop, if_neg (by omega)]
    rfl
  | succ d ih =>
    intro N m hd hN
    rw [commitLoop, if_pos (by omega)]
    have e : (N + 1) % 256 = N + 1 := Nat.mod_eq_of_lt (by omega)
    rw [e, ih (N + 1) _ (by omega) (by omega), sendByte_eq, List.range'_succ,
      List.flatMap_cons, exec_append, (exec_frame _ m).1]

theorem commit_eq (F n : Nat) (m : Machine) :
    commit F n m =
      { exec (frameInstrs F n m) { m with sregI := false } with sregI := m.sregI } := by
  unfold commit atomicBlockRestoreState frameInstrs
  simp only
  rw [commitLoop_eq F n (numBytes n) 0 _ rfl (Nat.zero_le _), List.range_eq_range']

theorem emitted_commit (F n : Nat) (m : Machine) :
    emitted m (commit F n m) = stepsOf false m.portBit (frameInstrs F n m) := by
  unfold emitted
  rw [commit_eq]
  simp only [exec_log]
  exact List.drop_left _ _

theorem commit_sregI (F n : Nat) (m : Machine) : (commit F n m).sregI = m.sregI := by
  rw [commit_eq]

theorem range_three_mul_flatMap {α : Type} (f : Nat → List α) (n : Nat) :
    (List.range (3 * n)).flatMap f =
      (List.range n).flatMap (fun led => f (3 * led) ++ f (3 * led + 1) ++ f (3 * led + 2)) := by
  induction n with
  | zero => rfl
  | succ n ih =>
    rw [show 3 * (n + 1) = 3 * n + 1 + 1 + 1 by ring, List.range_succ, List.range_succ,
      List.range_succ, List.range_succ]
    simp only [List.flatMap_append, List.flatMap_cons, List.flatMap_nil, List.append_nil, ih,
      List.append_assoc]

theorem frameInstrs_eq_wireBits (F n : Nat) (m : Machine) (hn : LedCountOk n) :
    frameInstrs F n m = (wireBits n m).flatMap (pulse F) := by
  unfold frameInstrs wireBits
  rw [numBytes_eq n hn, range_three_mul_flatMap, List.flatMap_assoc]
  simp only [getColor, List.flatMap_append]

theorem wireBits_length (n : Nat) (m : Machine) : (wireBits n m).length = 24 * n := by
  unfold wireBits
  induction n with
  | zero => rfl
  | succ n ih =>
    rw [List.range_succ, List.flatMap_append, List.length_append, ih]
    simp [byteBits]
    omega

theorem pulse_decodes (F : Nat) (hF : SupportedClock F) :
    ∀ bits bits2 : List Bool,
      bits.flatMap (pulse F) = bits2.flatMap (pulse F) → bits = bits2 := by
  intro bits
  induction bits with
  | nil =>
    intro bits2 h
    cases bits2 with
    | nil => rfl
    | cons b t =>
      exfalso
      rcases hF with hF | hF <;> cases b <;>
        simp [pulse, hF, List.replicate] at h
  | cons a s ih =>
    intro bits2 h
    cases bits2 with
    | nil =>
      exfalso
      rcases hF with hF | hF <;> cases a <;>
        simp [pulse, hF, List.replicate] at h
    | cons b t =>
      have hab : a = b := by
        rcases hF with hF | hF <;> cases a <;> cases b <;>
          simp [pulse, hF, List.replicate] at h ⊢
      subst hab
      rw [List.flatMap_cons, List.flatMap_cons] at h
      rw [ih t (List.append_cancel_left h)]

theorem scenarioRGB_dataBytes (m0 : Machine) (h : m0.dataBytes.length = 9) :
    (scenarioRGB m0).dataBytes = [0x00, 0xFF, 0x00, 0xFF, 0x00, 0x00, 0x00, 0x00, 0xFF] := by
  have hr : WS2812Color.red = ⟨0, 255, 0⟩ := by decide
  have hg : WS2812Color.green = ⟨255, 0, 0⟩ := by decide
  have hb : WS2812Color.blue = ⟨0, 0, 255⟩ := by decide
  unfold scenarioRGB
  rw [begin_eq 3 m0 (by unfold LedCountOk; decide) h, hr, hg, hb]
  rfl

theorem map_getD_range (l : List Nat) :
    (List.range l.length).map (fun j => l.getD j 0) = l := by
  apply List.ext_getElem (by simp)
  intro i h1 h2
  simp [List.getD_eq_getElem?_getD, List.getElem?_eq_getElem h2]

theorem wireBits_eq_buffer (n : Nat) (m : Machine) (hlen : m.dataBytes.length = 3 * n) :
    wireBits n m = m.dataBytes.flatMap byteBits := by
  have h := range_three_mul_flatMap (fun j => byteBits (m.dataBytes.getD j 0)) n
  unfold wireBits
  simp only [getColor]
  rw [← h, ← hlen, ← List.flatMap_map (fun j => m.dataBytes.getD j 0) byteBits,
    map_getD_range]

theorem commit_iterate_sregI (F n : Nat) (k : Nat) :
    ∀ m : Machine, ((commit F n)^[k] m).sregI = m.sregI := by
  induction k with
  | zero => intro m; rfl
  | succ k ih =>
    intro m
    rw [Function.iterate_succ_apply, ih, commit_sregI]

theorem wireBits_entry (m : Machine) :
    ∀ (n led k : Nat), led < n → k < 8 →
      (wireBits n m)[24 * led + k]? = some ((getColor m led).g.testBit (7 - k)) ∧
      (wireBits n m)[24 * led + 8 + k]? = some ((getColor m led).r.testBit (7 - k)) ∧
      (wireBits n m)[24 * led + 16 + k]? = some ((getColor m led).b.testBit (7 - k)) := by
  intro n
  induction n with
  | zero => intro led k h; omega
  | succ n ih =>
    intro led k hled hk
    have hlen := wireBits_length n m
    have hs : wireBits (n + 1) m = wireBits n m ++
        (byteBits (getColor m n).g ++ byteBits (getColor m n).r ++ byteBits (getColor m n).b) := by
      unfold wireBits
      rw [List.range_succ, List.flatMap_append, List.flatMap_singleton]
    rw [hs]
    by_cases hlt : led < n
    · obtain ⟨h1, h2, h3⟩ := ih led k hlt hk
      rw [List.getElem?_append_left (by omega), List.getElem?_append_left (by omega),
        List.getElem?_append_left (by omega)]
      exact ⟨h1, h2, h3⟩
    · have hl : led = n := by omega
      subst hl
      have hblock : ∀ (blk : List Bool) (j : Nat),
          (wireBits led m ++ blk)[24 * led + j]? = blk[j]? := by
        intro blk j
        rw [List.getElem?_append_right (by omega), hlen, Nat.add_sub_cancel_left]
      rw [Nat.add_assoc, Nat.add_assoc, hblock, hblock, hblock]
      simp only [byteBits, List.range, List.range.loop, List.map_cons, List.map_nil,
        List.cons_append, List.nil_append]
      interval_cases k <;> exact ⟨rfl, rfl, rfl⟩

/-- C1: for every LED count `n` with `3 * n < 256`, both clock rates and every
buffer contents, the instruction stream issued by `commit()` is the
concatenation of the bit pulses of exactly `24 * n` bits, and no other bit
sequence has that stream; the bits are those of the buffer bytes in order,
each most significant bit first; bit `k` of LED `led` is bit `7 - k` of its
green byte, bit `8 + k` that of its red byte and bit `16 + k` that of its blue
byte.
For the 3-LED strip set to red, green, blue the bytes sent are
00 FF 00, FF 00 00, 00 00 FF, 72 bits. -/
theorem commit_emits_wire_format (F n : Nat) (m : Machine) (hF : SupportedClock F)
    (hn : LedCountOk n) (hm : BufferOk n m) :
    (emitted m (commit F n m)).map Step.instr = (wireBits n m).flatMap (pulse F) ∧
    (∀ bits : List Bool,
      (emitted m (commit F n m)).map Step.instr = bits.flatMap (pulse F) →
        bits = wireBits n m) ∧
    (wireBits n m).length = 24 * n ∧
    wireBits n m = m.dataBytes.flatMap byteBits ∧
    (∀ led k, led < n → k < 8 →
      (wireBits n m)[24 * led + k]? = some ((getColor m led).g.testBit (7 - k)) ∧
      (wireBits n m)[24 * led + 8 + k]? = some ((getColor m led).r.testBit (7 - k)) ∧
      (wireBits n m)[24 * led + 16 + k]? = some ((getColor m led).b.testBit (7 - k))) ∧
    (∀ m0 : Machine, m0.dataBytes.length = 9 →
      (scenarioRGB m0).dataBytes = [0x00, 0xFF, 0x00, 0xFF, 0x00, 0x00, 0x00, 0x00, 0xFF] ∧
      wireBits 3 (scenarioRGB m0)
        = [0x00, 0xFF, 0x00, 0xFF, 0x00, 0x00, 0x00, 0x00, 0xFF].flatMap byteBits ∧
      (wireBits 3 (scenarioRGB m0)).length = 72 ∧
      (emitted (scenarioRGB m0) (commit F 3 (scenarioRGB m0))).map Step.instr
        = (wireBits 3 (scenarioRGB m0)).flatMap (pulse F)) := by
  have key : ∀ (k : Nat) (x : Machine), LedCountOk k →
      (emitted x (commit F k x)).map Step.instr = (wireBits k x).flatMap (pulse F) := by
    intro k x hk
    rw [emitted_commit, stepsOf_instr, frameInstrs_eq_wireBits F k x hk]
  refine ⟨key n m hn, ?_, wireBits_length n m, wireBits_eq_buffer n m hm.1,
    wireBits_entry m n, ?_⟩
  · intro bits hb
    rw [key n m hn] at hb
    exact (pulse_decodes F hF _ _ hb).symm
  · intro m0 h0
    have hd := scenarioRGB_dataBytes m0 h0
    refine ⟨hd, ?_, wireBits_length 3 _, key 3 _ (by unfold LedCountOk; decide)⟩
    unfold wireBits
    simp only [getColor, hd]
    rfl

theorem commit_emits_wire_format_witness :
    LedCountOk 85 ∧
    BufferOk 85 ⟨List.replicate 255 170, true, true, false, []⟩ ∧
    (emitted ⟨List.replicate 255 170, true, true, false, []⟩
        (commit 16000000 85 ⟨List.replicate 255 170, true, true, false, []⟩)).map Step.instr
      = (wireBits 85 ⟨List.replicate 255 170, true, true, false, []⟩).flatMap (pulse 16000000) ∧
    (wireBits 85 ⟨List.replicate 255 170, true, true, false, []⟩).length = 24 * 85 := by
  have hn : LedCountOk 85 := by unfold LedCountOk; decide
  have hb : BufferOk 85 ⟨List.replicate 255 170, true, true, false, []⟩ :=
    ⟨List.length_replicate 255 170, fun v hv => by
      rw [List.eq_of_mem_replicate hv]; decide⟩
  have h := commit_emits_wire_format 16000000 85 ⟨List.replicate 255 170, true, true, false, []⟩
    (Or.inr rfl) hn hb
  exact ⟨hn, hb, h.1, h.2.2.1⟩

/-- C10: every instruction of the transmission of `commit()` runs with the
global interrupt-enable flag cleared, and on return the flag has the value it
had before the call, whichever it was; the same holds for a second call
following the first. -/
theorem commit_restores_interrupt_flag (F n : Nat) (m : Machine) :
    (emitted m (commit F n m)).map Step.instr = frameInstrs F n m ∧
    (∀ st ∈ emitted m (commit F n m), st.iflag = false) ∧
    (commit F n m).sregI = m.sregI ∧
    (emitted (commit F n m) (commit F n (commit F n m))).map Step.instr
      = frameInstrs F n (commit F n m) ∧
    (∀ st ∈ emitted (commit F n m) (commit F n (commit F n m)), st.iflag = false) ∧
    (commit F n (commit F n m)).sregI = m.sregI ∧
    (∀ k : Nat, ((commit F n)^[k] m).sregI = m.sregI) := by
  refine ⟨?_, ?_, commit_sregI F n m, ?_, ?_, ?_, fun k => commit_iterate_sregI F n k m⟩
  · rw [emitted_commit, stepsOf_instr]
  · rw [emitted_commit]; exact stepsOf_iflag _ _ _
  · rw [emitted_commit, stepsOf_instr]
  · rw [emitted_commit]; exact stepsOf_iflag _ _ _
  · rw [commit_sregI, commit_sregI]

/-! ## Named constants, initializer lists and dimming -/

/-- C13: read in RGB order, black is (0,0,0), red (255,0,0), green (0,255,0),
blue (0,0,255) and white (255,255,255); `off` is the same colour as black. -/
theorem named_constants_decode :
    (WS2812Color.black.r, WS2812Color.black.g, WS2812Color.black.b) = (0, 0, 0) ∧
    (WS2812Color.red.r, WS2812Color.red.g, WS2812Color.red.b) = (255, 0, 0) ∧
    (WS2812Color.green.r, WS2812Color.green.g, WS2812Color.green.b) = (0, 255, 0) ∧
    (WS2812Color.blue.r, WS2812Color.blue.g, WS2812Color.blue.b) = (0, 0, 255) ∧
    (WS2812Color.white.r, WS2812Color.white.g, WS2812Color.white.b) = (255, 255, 255) ∧
    WS2812Color.off = WS2812Color.black := by
  refine ⟨by decide, by decide, by decide, by decide, by decide, rfl⟩

theorem ofList_four (k x y z : Nat) :
    WS2812Color.ofList [k, x, y, z] =
      if k ≠ 0 then (WS2812Color.mk3 x y z).dim k else WS2812Color.mk3 x y z := by
  simp [WS2812Color.ofList, WS2812Color.deref, WS2812Color.mk3]

theorem dim_mk3 (x y z k : Nat) (hx : x < 256) (hy : y < 256) (hz : z < 256) (hk : k < 256) :
    (WS2812Color.mk3 x y z).dim k = WS2812Color.mk3 (x * k / 256) (y * k / 256) (z * k / 256) := by
  rw [dim_eq]
  simp only [WS2812Color.mk3]
  rw [scale_eq _ _ hx hk, scale_eq _ _ hy hk, scale_eq _ _ hz hk]

/-- C14: an initializer list of 0 to 4 bytes fills the colour from blue
backward: `{}` is (0,0,0), `{x}` is (0,0,x), `{x,y}` is (0,x,y), `{x,y,z}` is
(x,y,z) unscaled, and `{k,x,y,z}` is (x,y,z) with each channel scaled to
`floor(channel * k / 256)` when `k` is nonzero and unscaled when `k` is 0. -/
theorem initializer_list_trailing_aligned (k x y z : Nat) (hk : k < 256) (hx : x < 256)
    (hy : y < 256) (hz : z < 256) :
    WS2812Color.ofList [] = WS2812Color.mk3 0 0 0 ∧
    WS2812Color.ofList [x] = WS2812Color.mk3 0 0 x ∧
    WS2812Color.ofList [x, y] = WS2812Color.mk3 0 x y ∧
    WS2812Color.ofList [x, y, z] = WS2812Color.mk3 x y z ∧
    (k ≠ 0 → WS2812Color.ofList [k, x, y, z]
      = WS2812Color.mk3 (x * k / 256) (y * k / 256) (z * k / 256)) ∧
    WS2812Color.ofList [0, x, y, z] = WS2812Color.mk3 x y z := by
  refine ⟨rfl, ?_, ?_, ?_, ?_, ?_⟩
  · simp [WS2812Color.ofList, WS2812Color.deref, WS2812Color.mk3]
  · simp [WS2812Color.ofList, WS2812Color.deref, WS2812Color.mk3]
  · simp [WS2812Color.ofList, WS2812Color.deref, WS2812Color.mk3]
  · intro h
    rw [ofList_four, if_pos h, dim_mk3 x y z k hx hy hz hk]
  · rw [ofList_four, if_neg (by simp)]

theorem initializer_list_trailing_aligned_witness :
    WS2812Color.ofList [] = WS2812Color.mk3 0 0 0 ∧
    WS2812Color.ofList [255] = WS2812Color.mk3 0 0 255 ∧
    WS2812Color.ofList [255, 192] = WS2812Color.mk3 0 255 192 ∧
    WS2812Color.ofList [255, 192, 203] = WS2812Color.mk3 255 192 203 ∧
    (16 ≠ 0 → WS2812Color.ofList [16, 255, 192, 203]
      = WS2812Color.mk3 (255 * 16 / 256) (192 * 16 / 256) (203 * 16 / 256)) ∧
    WS2812Color.ofList [0, 255, 192, 203] = WS2812Color.mk3 255 192 203 :=
  initializer_list_trailing_aligned 16 255 192 203 (by decide) (by decide) (by decide)
    (by decide)

theorem ofPacked_pack (k r g b : Nat) (hk : k < 256) (hr : r < 256) (hg : g < 256)
    (hb : b < 256) :
    WS2812Color.ofPacked (pack k r g b) =
      if k ≠ 0 then (WS2812Color.mk3 r g b).dim k else WS2812Color.mk3 r g b := by
  obtain ⟨e3, e2, e1, e0⟩ := bt_pack k r g b hk hr hg hb
  simp only [WS2812Color.ofPacked, WS2812Color.mk3, e3, e2, e1, e0]

theorem mul_255_div (v : Nat) (hv : v < 256) : v * 255 / 256 = v - 1 := by
  omega

/-- C15 at the failing input: on each of the three construction paths the
colour (255, 192, 203) built with brightness 0 differs from the one built with
brightness 255.  The initializer list and the packed value give
(255, 192, 203) with brightness 0 and (254, 191, 202) with brightness 255; the
four-argument constructor gives black with brightness 0 and (254, 191, 202)
with brightness 255. -/
theorem zero_brightness_differs_from_255 :
    WS2812Color.ofList [0, 255, 192, 203] = WS2812Color.mk3 255 192 203 ∧
    WS2812Color.ofList [255, 255, 192, 203] = WS2812Color.mk3 254 191 202 ∧
    WS2812Color.ofPacked (pack 0 255 192 203) = WS2812Color.mk3 255 192 203 ∧
    WS2812Color.ofPacked (pack 255 255 192 203) = WS2812Color.mk3 254 191 202 ∧
    WS2812Color.mk4 0 255 192 203 = WS2812Color.mk3 0 0 0 ∧
    WS2812Color.mk4 255 255 192 203 = WS2812Color.mk3 254 191 202 ∧
    WS2812Color.ofList [0, 255, 192, 203] ≠ WS2812Color.ofList [255, 255, 192, 203] ∧
    WS2812Color.ofPacked (pack 0 255 192 203) ≠ WS2812Color.ofPacked (pack 255 255 192 203) ∧
    WS2812Color.mk4 0 255 192 203 ≠ WS2812Color.mk4 255 255 192 203 := by
  have h1 : WS2812Color.ofList [0, 255, 192, 203] = WS2812Color.mk3 255 192 203 := by
    rw [ofList_four, if_neg (by simp)]
  have h2 : WS2812Color.ofList [255, 255, 192, 203] = WS2812Color.mk3 254 191 202 := by
    rw [ofList_four, if_pos (by decide),
      dim_mk3 255 192 203 255 (by decide) (by decide) (by decide) (by decide)]
  have h3 : WS2812Color.ofPacked (pack 0 255 192 203) = WS2812Color.mk3 255 192 203 := by
    rw [ofPacked_pack 0 255 192 203 (by decide) (by decide) (by decide) (by decide),
      if_neg (by simp)]
  have h4 : WS2812Color.ofPacked (pack 255 255 192 203) = WS2812Color.mk3 254 191 202 := by
    rw [ofPacked_pack 255 255 192 203 (by decide) (by decide) (by decide) (by decide),
      if_pos (by decide), dim_mk3 255 192 203 255 (by decide) (by decide) (by decide) (by decide)]
  have h5 : WS2812Color.mk4 0 255 192 203 = WS2812Color.mk3 0 0 0 := by
    show (WS2812Color.mk3 255 192 203).dim 0 = _
    rw [dim_eq]; decide
  have h6 : WS2812Color.mk4 255 255 192 203 = WS2812Color.mk3 254 191 202 := by
    show (WS2812Color.mk3 255 192 203).dim 255 = _
    rw [dim_eq]; decide
  refine ⟨h1, h2, h3, h4, h5, h6, ?_, ?_, ?_⟩
  · rw [h1, h2]; decide
  · rw [h3, h4]; decide
  · rw [h5, h6]; decide

/-- The extent of the difference between brightness 0 and brightness 255 on the
initializer-list and packed-value paths: brightness 0 leaves (r, g, b)
unscaled while brightness 255 scales every channel to
`floor(channel * 255 / 256)`, one less for every nonzero channel, so the two
colours agree only when r, g and b are all 0. -/
theorem zero_brightness_versus_255 (r g b : Nat) (hr : r < 256) (hg : g < 256)
    (hb : b < 256) :
    WS2812Color.ofList [0, r, g, b] = WS2812Color.mk3 r g b ∧
    WS2812Color.ofList [255, r, g, b] = WS2812Color.mk3 (r - 1) (g - 1) (b - 1) ∧
    WS2812Color.ofPacked (pack 0 r g b) = WS2812Color.mk3 r g b ∧
    WS2812Color.ofPacked (pack 255 r g b) = WS2812Color.mk3 (r - 1) (g - 1) (b - 1) ∧
    (r * 255 / 256 = r - 1 ∧ g * 255 / 256 = g - 1 ∧ b * 255 / 256 = b - 1) ∧
    (WS2812Color.ofList [0, r, g, b] = WS2812Color.ofList [255, r, g, b]
      ↔ r = 0 ∧ g = 0 ∧ b = 0) ∧
    (WS2812Color.ofPacked (pack 0 r g b) = WS2812Color.ofPacked (pack 255 r g b)
      ↔ r = 0 ∧ g = 0 ∧ b = 0) := by
  have h1 : WS2812Color.ofList [0, r, g, b] = WS2812Color.mk3 r g b := by
    rw [ofList_four, if_neg (by simp)]
  have h2 : WS2812Color.ofList [255, r, g, b] = WS2812Color.mk3 (r - 1) (g - 1) (b - 1) := by
    rw [ofList_four, if_pos (by decide), dim_mk3 r g b 255 hr hg hb (by decide),
      mul_255_div r hr, mul_255_div g hg, mul_255_div b hb]
  have h3 : WS2812Color.ofPacked (pack 0 r g b) = WS2812Color.mk3 r g b := by
    rw [ofPacked_pack 0 r g b (by decide) hr hg hb, if_neg (by simp)]
  have h4 : WS2812Color.ofPacked (pack 255 r g b)
      = WS2812Color.mk3 (r - 1) (g - 1) (b - 1) := by
    rw [ofPacked_pack 255 r g b (by decide) hr hg hb, if_pos (by decide),
      dim_mk3 r g b 255 hr hg hb (by decide),
      mul_255_div r hr, mul_255_div g hg, mul_255_div b hb]
  have key : WS2812Color.mk3 r g b = WS2812Color.mk3 (r - 1) (g - 1) (b - 1)
      ↔ r = 0 ∧ g = 0 ∧ b = 0 := by
    simp only [WS2812Color.mk3, WS2812Color.mk.injEq]
    omega
  refine ⟨h1, h2, h3, h4, ⟨mul_255_div r hr, mul_255_div g hg, mul_255_div b hb⟩, ?_, ?_⟩
  · rw [h1, h2]; exact key
  · rw [h3, h4]; exact key

theorem zero_brightness_versus_255_witness :
    WS2812Color.ofList [0, 255, 192, 203] = WS2812Color.mk3 255 192 203 ∧
    WS2812Color.ofList [255, 255, 192, 203]
      = WS2812Color.mk3 (255 - 1) (192 - 1) (203 - 1) ∧
    WS2812Color.ofPacked (pack 0 255 192 203) = WS2812Color.mk3 255 192 203 ∧
    WS2812Color.ofPacked (pack 255 255 192 203)
      = WS2812Color.mk3 (255 - 1) (192 - 1) (203 - 1) ∧
    (255 * 255 / 256 = 255 - 1 ∧ 192 * 255 / 256 = 192 - 1 ∧ 203 * 255 / 256 = 203 - 1) ∧
    (WS2812Color.ofList [0, 255, 192, 203] = WS2812Color.ofList [255, 255, 192, 203]
      ↔ 255 = 0 ∧ 192 = 0 ∧ 203 = 0) ∧
    (WS2812Color.ofPacked (pack 0 255 192 203) = WS2812Color.ofPacked (pack 255 255 192 203)
      ↔ 255 = 0 ∧ 192 = 0 ∧ 203 = 0) :=
  zero_brightness_versus_255 255 192 203 (by decide) (by decide) (by decide)

/-- C16, as stated, fails: `WS2812Color(16, 255, 192, 203)` and
`{16, 255, 192, 203}` are (15, 12, 12), while the packed value `0x0FFFC0CB`,
whose top byte is 15, is (14, 11, 11). -/
theorem dimPink_forms_differ :
    WS2812Color.mk4 16 255 192 203 = WS2812Color.mk3 15 12 12 ∧
    WS2812Color.ofList [16, 255, 192, 203] = WS2812Color.mk3 15 12 12 ∧
    WS2812Color.ofPacked 0x0FFFC0CB = WS2812Color.mk3 14 11 11 ∧
    WS2812Color.ofPacked 0x0FFFC0CB ≠ WS2812Color.mk4 16 255 192 203 := by
  have h1 : WS2812Color.mk4 16 255 192 203 = WS2812Color.mk3 15 12 12 := by
    show (WS2812Color.mk3 255 192 203).dim 16 = _
    rw [dim_eq]; decide
  have h2 : WS2812Color.ofList [16, 255, 192, 203] = WS2812Color.mk3 15 12 12 := by
    rw [ofList_four, if_pos (by decide), dim_eq]; decide
  have h3 : WS2812Color.ofPacked 0x0FFFC0CB = WS2812Color.mk3 14 11 11 := by
    rw [show (0x0FFFC0CB : Nat) = pack 15 255 192 203 by decide,
      ofPacked_pack 15 255 192 203 (by decide) (by decide) (by decide) (by decide),
      if_pos (by decide), dim_eq]
    decide
  refine ⟨h1, h2, h3, ?_⟩
  rw [h1, h3]; decide

/-- C16, amended: `WS2812Color(16, 255, 192, 203)`, `{16, 255, 192, 203}` and
the packed value `0x10FFC0CB` construct the same colour, (15, 12, 12); the
packed value `0x0FFFC0CB` of the documentation has brightness byte 15 and
constructs (14, 11, 11), the colour of `WS2812Color(15, 255, 192, 203)`. -/
theorem dimPink_forms :
    WS2812Color.mk4 16 255 192 203 = WS2812Color.mk3 15 12 12 ∧
    WS2812Color.ofList [16, 255, 192, 203] = WS2812Color.mk4 16 255 192 203 ∧
    WS2812Color.ofPacked 0x10FFC0CB = WS2812Color.mk4 16 255 192 203 ∧
    WS2812Color.ofPacked 0x0FFFC0CB = WS2812Color.mk3 14 11 11 ∧
    WS2812Color.ofPacked 0x0FFFC0CB = WS2812Color.mk4 15 255 192 203 := by
  have h1 : WS2812Color.mk4 16 255 192 203 = WS2812Color.mk3 15 12 12 := by
    show (WS2812Color.mk3 255 192 203).dim 16 = _
    rw [dim_eq]; decide
  have h5 : WS2812Color.mk4 15 255 192 203 = WS2812Color.mk3 14 11 11 := by
    show (WS2812Color.mk3 255 192 203).dim 15 = _
    rw [dim_eq]; decide
  have h2 : WS2812Color.ofList [16, 255, 192, 203] = WS2812Color.mk3 15 12 12 := by
    rw [ofList_four, if_pos (by decide), dim_eq]; decide
  have h3 : WS2812Color.ofPacked 0x10FFC0CB = WS2812Color.mk3 15 12 12 := by
    rw [show (0x10FFC0CB : Nat) = pack 16 255 192 203 by decide,
      ofPacked_pack 16 255 192 203 (by decide) (by decide) (by decide) (by decide),
      if_pos (by decide), dim_eq]
    decide
  have h4 : WS2812Color.ofPacked 0x0FFFC0CB = WS2812Color.mk3 14 11 11 := by
    rw [show (0x0FFFC0CB : Nat) = pack 15 255 192 203 by decide,
      ofPacked_pack 15 255 192 203 (by decide) (by decide) (by decide) (by decide),
      if_pos (by decide), dim_eq]
    decide
  exact ⟨h1, by rw [h2, h1], by rw [h3, h1], h4, by rw [h4, h5]⟩

theorem dimmer_channels (c : WS2812Color) (k : Nat) (hc : c.WellFormed) (hk : k ≤ 255) :
    (c.dimmer k).r = c.r * k / 256 ∧ (c.dimmer k).g = c.g * k / 256 ∧
    (c.dimmer k).b = c.b * k / 256 := by
  obtain ⟨hg, hr, hb⟩ := hc
  have hk2 : k < 256 := by omega
  have e : c.dimmer k = c.dim k := rfl
  rw [e, dim_eq]
  exact ⟨scale_eq _ _ hr hk2, scale_eq _ _ hg hk2, scale_eq _ _ hb hk2⟩

theorem scaled_lt (v k : Nat) (hk : k ≤ 255) :
    v * k / 256 ≤ v ∧ (v * k / 256 = v ↔ v = 0) := by
  have hp : v * k ≤ v * 255 := Nat.mul_le_mul_left v hk
  generalize v * k = p at hp
  omega

/-- C19: for every colour and every brightness byte `k` in [0,255], each channel
of `dimmer(k)` is at most the same channel of the receiver, with equality only
when that channel is 0; `dimmer(255)` turns every nonzero channel `v` into
`v - 1`. -/
theorem dimming_never_brightens (c : WS2812Color) (k : Nat) (hc : c.WellFormed)
    (hk : k ≤ 255) :
    ((c.dimmer k).r ≤ c.r ∧ (c.dimmer k).g ≤ c.g ∧ (c.dimmer k).b ≤ c.b) ∧
    (((c.dimmer k).r = c.r ↔ c.r = 0) ∧ ((c.dimmer k).g = c.g ↔ c.g = 0) ∧
      ((c.dimmer k).b = c.b ↔ c.b = 0)) ∧
    ((c.r ≠ 0 → (c.dimmer 255).r = c.r - 1) ∧ (c.g ≠ 0 → (c.dimmer 255).g = c.g - 1) ∧
      (c.b ≠ 0 → (c.dimmer 255).b = c.b - 1)) := by
  obtain ⟨er, eg, eb⟩ := dimmer_channels c k hc hk
  obtain ⟨fr, fg, fb⟩ := dimmer_channels c 255 hc (by decide)
  have hc2 := hc
  obtain ⟨hg, hr, hb⟩ := hc2
  rw [er, eg, eb, fr, fg, fb]
  refine ⟨⟨(scaled_lt _ k hk).1, (scaled_lt _ k hk).1, (scaled_lt _ k hk).1⟩,
    ⟨(scaled_lt _ k hk).2, (scaled_lt _ k hk).2, (scaled_lt _ k hk).2⟩,
    ⟨fun _ => mul_255_div _ hr, fun _ => mul_255_div _ hg, fun _ => mul_255_div _ hb⟩⟩

theorem dimming_never_brightens_witness :
    (((WS2812Color.mk3 255 0 1).dimmer 255).r ≤ (WS2812Color.mk3 255 0 1).r ∧
      ((WS2812Color.mk3 255 0 1).dimmer 255).g ≤ (WS2812Color.mk3 255 0 1).g ∧
      ((WS2812Color.mk3 255 0 1).dimmer 255).b ≤ (WS2812Color.mk3 255 0 1).b) ∧
    ((((WS2812Color.mk3 255 0 1).dimmer 255).r = (WS2812Color.mk3 255 0 1).r
        ↔ (WS2812Color.mk3 255 0 1).r = 0) ∧
      (((WS2812Color.mk3 255 0 1).dimmer 255).g = (WS2812Color.mk3 255 0 1).g
        ↔ (WS2812Color.mk3 255 0 1).g = 0) ∧
      (((WS2812Color.mk3 255 0 1).dimmer 255).b = (WS2812Color.mk3 255 0 1).b
        ↔ (WS2812Color.mk3 255 0 1).b = 0)) ∧
    (((WS2812Color.mk3 255 0 1).r ≠ 0 →
        ((WS2812Color.mk3 255 0 1).dimmer 255).r = (WS2812Color.mk3 255 0 1).r - 1) ∧
      ((WS2812Color.mk3 255 0 1).g ≠ 0 →
        ((WS2812Color.mk3 255 0 1).dimmer 255).g = (WS2812Color.mk3 255 0 1).g - 1) ∧
      ((WS2812Color.mk3 255 0 1).b ≠ 0 →
        ((WS2812Color.mk3 255 0 1).dimmer 255).b = (WS2812Color.mk3 255 0 1).b - 1)) :=
  dimming_never_brightens (WS2812Color.mk3 255 0 1) 255
    (by simp [WS2812Color.WellFormed, WS2812Color.mk3]) (by decide)

theorem getD_append_add (front l : List Nat) (i d : Nat) :
    (front ++ l).getD (front.length + i) d = l.getD i d := by
  induction front with
  | nil => simp
  | cons a t ih =>
    rw [List.cons_append, List.length_cons, show t.length + 1 + i = (t.length + i) + 1 by omega,
      List.getD_cons_succ]
    exact ih

theorem ofList_append_four (front : List Nat) (k x y z : Nat) :
    WS2812Color.ofList (front ++ [k, x, y, z]) = WS2812Color.ofList [k, x, y, z] := by
  have hlen : (front ++ [k, x, y, z]).length = front.length + 4 := by simp
  have d3 : WS2812Color.deref (front ++ [k, x, y, z]) ((front.length + 4 : Nat) - 1 : Int) = z := by
    unfold WS2812Color.deref
    rw [show ((front.length + 4 : Nat) - 1 : Int).toNat = front.length + 3 by omega,
      getD_append_add]
    rfl
  have d2 : WS2812Color.deref (front ++ [k, x, y, z])
      ((front.length + 4 : Nat) - 1 - 1 : Int) = y := by
    unfold WS2812Color.deref
    rw [show ((front.length + 4 : Nat) - 1 - 1 : Int).toNat = front.length + 2 by omega,
      getD_append_add]
    rfl
  have d1 : WS2812Color.deref (front ++ [k, x, y, z])
      ((front.length + 4 : Nat) - 1 - 1 - 1 : Int) = x := by
    unfold WS2812Color.deref
    rw [show ((front.length + 4 : Nat) - 1 - 1 - 1 : Int).toNat = front.length + 1 by omega,
      getD_append_add]
    rfl
  have d0 : WS2812Color.deref (front ++ [k, x, y, z])
      ((front.length + 4 : Nat) - 1 - 1 - 1 - 1 : Int) = k := by
    unfold WS2812Color.deref
    rw [show ((front.length + 4 : Nat) - 1 - 1 - 1 - 1 : Int).toNat = front.length + 0 by omega,
      getD_append_add]
    rfl
  rw [ofList_four]
  unfold WS2812Color.ofList
  simp only [hlen, d3, d2, d1, d0]
  rw [if_neg (by omega), if_neg (by omega), if_neg (by omega), if_neg (by omega)]
  rfl

theorem ofList_eq_last_four (l : List Nat) (h : 4 ≤ l.length) :
    WS2812Color.ofList l = WS2812Color.ofList (l.drop (l.length - 4)) := by
  have hd : (l.drop (l.length - 4)).length = 4 := by
    rw [List.length_drop]; omega
  have hsplit : l = l.take (l.length - 4) ++ l.drop (l.length - 4) :=
    (List.take_append_drop _ _).symm
  generalize l.drop (l.length - 4) = tl at hd hsplit
  match tl, hd with
  | [k, x, y, z], _ =>
    rw [hsplit]
    exact ofList_append_four _ k x y z

/-- C20: for an initializer list of more than four bytes the colour is the one
constructed from the four-element list of its last four bytes, read as
brightness, R, G, B; two such lists with the same last four bytes give the
same colour, whatever their earlier elements. -/
theorem long_initializer_list_uses_last_four (l : List Nat) (h : 4 < l.length) :
    (l.drop (l.length - 4)).length = 4 ∧
    WS2812Color.ofList l = WS2812Color.ofList (l.drop (l.length - 4)) ∧
    (∀ l2 : List Nat, 4 < l2.length → l2.drop (l2.length - 4) = l.drop (l.length - 4) →
      WS2812Color.ofList l2 = WS2812Color.ofList l) ∧
    (∀ (front : List Nat) (k x y z : Nat), l = front ++ [k, x, y, z] →
      WS2812Color.ofList l = WS2812Color.ofList [k, x, y, z]) := by
  refine ⟨by rw [List.length_drop]; omega, ofList_eq_last_four l (by omega), ?_, ?_⟩
  · intro l2 h2 he
    rw [ofList_eq_last_four l2 (by omega), he, ← ofList_eq_last_four l (by omega)]
  · intro front k x y z hl
    rw [hl]
    exact ofList_append_four front k x y z

theorem long_initializer_list_uses_last_four_witness :
    ([9, 9, 0, 1, 2, 3].drop ([9, 9, 0, 1, 2, 3].length - 4)).length = 4 ∧
    WS2812Color.ofList [9, 9, 0, 1, 2, 3]
      = WS2812Color.ofList ([9, 9, 0, 1, 2, 3].drop ([9, 9, 0, 1, 2, 3].length - 4)) ∧
    (∀ l2 : List Nat, 4 < l2.length →
      l2.drop (l2.length - 4) = [9, 9, 0, 1, 2, 3].drop ([9, 9, 0, 1, 2, 3].length - 4) →
      WS2812Color.ofList l2 = WS2812Color.ofList [9, 9, 0, 1, 2, 3]) ∧
    (∀ (front : List Nat) (k x y z : Nat), [9, 9, 0, 1, 2, 3] = front ++ [k, x, y, z] →
      WS2812Color.ofList [9, 9, 0, 1, 2, 3] = WS2812Color.ofList [k, x, y, z]) :=
  long_initializer_list_uses_last_four [9, 9, 0, 1, 2, 3] (by decide)

/-! ## Pulse shapes -/

theorem oneSteps_eq (F : Nat) (m : Machine) :
    oneSteps F m = stepsOf m.sregI m.portBit (pulse F true) := by
  unfold oneSteps emitted
  rw [sendOne_eq, exec_log]
  exact List.drop_left _ _

theorem zeroSteps_eq (F : Nat) (m : Machine) :
    zeroSteps F m = stepsOf m.sregI m.portBit (pulse F false) := by
  unfold zeroSteps emitted
  rw [sendZero_eq, exec_log]
  exact List.drop_left _ _

theorem stepsOf_length (f : Bool) (is : List Instr) (lvl : Bool) :
    (stepsOf f lvl is).length = is.length := by
  have h := congrArg List.length (stepsOf_instr f is lvl)
  rwa [List.length_map] at h

theorem pulse_16 (bit : Bool) :
    pulse 16000000 bit =
      if bit then [Instr.sbi] ++ List.replicate 9 Instr.nop ++ [Instr.sbi]
      else [Instr.sbi] ++ List.replicate 3 Instr.nop ++ [Instr.sbi] ++ List.replicate 5 Instr.nop := by
  unfold pulse
  rw [if_pos rfl]

theorem pulse_8 (bit : Bool) :
    pulse 8000000 bit =
      if bit then [Instr.sbi] ++ List.replicate 5 Instr.nop ++ [Instr.sbi]
      else [Instr.sbi] ++ List.replicate 1 Instr.nop ++ [Instr.sbi] ++ List.replicate 4 Instr.nop := by
  unfold pulse
  rw [if_neg (by decide), if_pos rfl]

theorem stepsOf_pulse (F : Nat) (hF : SupportedClock F) (f lvl bit : Bool) :
    stepsOf f lvl (pulse F bit) =
      twoPhase f lvl
        (if F = 16000000 then (if bit then 9 else 3) else (if bit then 5 else 1))
        (if F = 16000000 then (if bit then 0 else 5) else (if bit then 0 else 4)) := by
  rcases hF with hF | hF
  · subst hF
    cases bit <;> cases lvl <;> simp [pulse, stepsOf, twoPhase, List.replicate]
  · subst hF
    cases bit <;> cases lvl <;> simp [pulse, stepsOf, twoPhase, List.replicate]

theorem nopsAtLevel_twoPhase (f lvl : Bool) (a b : Nat) :
    nopsAtLevel (!lvl) (twoPhase f lvl a b) = a ∧ nopsAtLevel lvl (twoPhase f lvl a b) = b := by
  unfold nopsAtLevel twoPhase
  simp only [List.filter_append, List.length_append, List.filter_replicate]
  cases lvl <;> simp

theorem toggles_twoPhase (f lvl : Bool) (a b : Nat) : toggles (twoPhase f lvl a b) = 2 := by
  unfold toggles twoPhase
  simp only [List.filter_append, List.length_append, List.filter_replicate]
  simp

theorem phase_counts (F : Nat) (hF : SupportedClock F) (m : Machine) :
    oneSteps F m = twoPhase m.sregI m.portBit (if F = 16000000 then 9 else 5) 0 ∧
    zeroSteps F m = twoPhase m.sregI m.portBit (if F = 16000000 then 3 else 1)
      (if F = 16000000 then 5 else 4) ∧
    nopsAtLevel (!m.portBit) (oneSteps F m) = (if F = 16000000 then 9 else 5) ∧
    nopsAtLevel m.portBit (oneSteps F m) = 0 ∧
    nopsAtLevel (!m.portBit) (zeroSteps F m) = (if F = 16000000 then 3 else 1) ∧
    nopsAtLevel m.portBit (zeroSteps F m) = (if F = 16000000 then 5 else 4) := by
  have e1 : oneSteps F m
      = twoPhase m.sregI m.portBit (if F = 16000000 then 9 else 5) 0 := by
    rw [oneSteps_eq, stepsOf_pulse F hF]
    simp
  have e0 : zeroSteps F m = twoPhase m.sregI m.portBit (if F = 16000000 then 3 else 1)
      (if F = 16000000 then 5 else 4) := by
    rw [zeroSteps_eq, stepsOf_pulse F hF]
    simp
  refine ⟨e1, e0, ?_, ?_, ?_, ?_⟩
  · rw [e1]; exact (nopsAtLevel_twoPhase m.sregI m.portBit _ _).1
  · rw [e1]; exact (nopsAtLevel_twoPhase m.sregI m.portBit _ _).2
  · rw [e0]; exact (nopsAtLevel_twoPhase m.sregI m.portBit _ _).1
  · rw [e0]; exact (nopsAtLevel_twoPhase m.sregI m.portBit _ _).2

/-- C11, as stated, fails: when the pin latch is high on entry, at 16 MHz the
1 bit spends 0 delay slots high and 9 low and the 0 bit spends 5 high and 3
low, so the 1 bit's high phase is not longer than the 0 bit's, and the 0 bit's
low phase is longer neither than the 1 bit's low phase nor than its own high
phase. -/
theorem bit_phases_from_high_pin :
    nopsAtLevel true (oneSteps 16000000 ⟨[], true, true, true, []⟩) = 0 ∧
    nopsAtLevel false (oneSteps 16000000 ⟨[], true, true, true, []⟩) = 9 ∧
    nopsAtLevel true (zeroSteps 16000000 ⟨[], true, true, true, []⟩) = 5 ∧
    nopsAtLevel false (zeroSteps 16000000 ⟨[], true, true, true, []⟩) = 3 ∧
    ¬ (nopsAtLevel true (zeroSteps 16000000 ⟨[], true, true, true, []⟩)
        < nopsAtLevel true (oneSteps 16000000 ⟨[], true, true, true, []⟩)) ∧
    ¬ (nopsAtLevel false (oneSteps 16000000 ⟨[], true, true, true, []⟩)
        < nopsAtLevel false (zeroSteps 16000000 ⟨[], true, true, true, []⟩)) ∧
    ¬ (nopsAtLevel true (zeroSteps 16000000 ⟨[], true, true, true, []⟩)
        < nopsAtLevel false (zeroSteps 16000000 ⟨[], true, true, true, []⟩)) := by
  refine ⟨by decide, by decide, by decide, by decide, by decide, by decide, by decide⟩

/-- C11, amended: at 8 MHz and at 16 MHz, whatever the pin level on entry, a
1 bit is a long first phase followed by a short second phase and a 0 bit a
short first phase followed by a longer second phase: the 1 bit's first phase
is strictly longer than the 0 bit's first phase, and the 0 bit's second phase
is strictly longer than the 1 bit's second phase and than its own first phase
(first and second phase 9, 0 and 3, 5 slots at 16 MHz; 5, 0 and 1, 4 at 8 MHz).
The first phase is at the level opposite to the entry level and the second at
the entry level: from a low pin the first phase is the high one and the
inequalities hold as the claim words them, from a high pin the two levels are
exchanged. -/
theorem bit_phase_lengths (F : Nat) (m : Machine) (hF : SupportedClock F) :
    oneSteps F m = twoPhase m.sregI m.portBit (nopsAtLevel (!m.portBit) (oneSteps F m))
      (nopsAtLevel m.portBit (oneSteps F m)) ∧
    zeroSteps F m = twoPhase m.sregI m.portBit (nopsAtLevel (!m.portBit) (zeroSteps F m))
      (nopsAtLevel m.portBit (zeroSteps F m)) ∧
    nopsAtLevel m.portBit (oneSteps F m) < nopsAtLevel (!m.portBit) (oneSteps F m) ∧
    nopsAtLevel (!m.portBit) (zeroSteps F m) < nopsAtLevel m.portBit (zeroSteps F m) ∧
    nopsAtLevel (!m.portBit) (zeroSteps F m) < nopsAtLevel (!m.portBit) (oneSteps F m) ∧
    nopsAtLevel m.portBit (oneSteps F m) < nopsAtLevel m.portBit (zeroSteps F m) ∧
    (F = 16000000 →
      nopsAtLevel (!m.portBit) (oneSteps F m) = 9 ∧ nopsAtLevel m.portBit (oneSteps F m) = 0 ∧
      nopsAtLevel (!m.portBit) (zeroSteps F m) = 3 ∧
      nopsAtLevel m.portBit (zeroSteps F m) = 5) ∧
    (F = 8000000 →
      nopsAtLevel (!m.portBit) (oneSteps F m) = 5 ∧ nopsAtLevel m.portBit (oneSteps F m) = 0 ∧
      nopsAtLevel (!m.portBit) (zeroSteps F m) = 1 ∧
      nopsAtLevel m.portBit (zeroSteps F m) = 4) ∧
    (m.portBit = false →
      nopsAtLevel false (oneSteps F m) < nopsAtLevel true (oneSteps F m) ∧
      nopsAtLevel true (zeroSteps F m) < nopsAtLevel false (zeroSteps F m) ∧
      nopsAtLevel true (zeroSteps F m) < nopsAtLevel true (oneSteps F m) ∧
      nopsAtLevel false (oneSteps F m) < nopsAtLevel false (zeroSteps F m)) ∧
    (m.portBit = true →
      nopsAtLevel true (oneSteps F m) < nopsAtLevel false (oneSteps F m) ∧
      nopsAtLevel false (zeroSteps F m) < nopsAtLevel true (zeroSteps F m) ∧
      nopsAtLevel false (zeroSteps F m) < nopsAtLevel false (oneSteps F m) ∧
      nopsAtLevel true (oneSteps F m) < nopsAtLevel true (zeroSteps F m)) := by
  obtain ⟨e1, e0, h1, l1, h0, l0⟩ := phase_counts F hF m
  have i1 : nopsAtLevel m.portBit (oneSteps F m) < nopsAtLevel (!m.portBit) (oneSteps F m) := by
    rw [h1, l1]; split <;> decide
  have i2 : nopsAtLevel (!m.portBit) (zeroSteps F m) < nopsAtLevel m.portBit (zeroSteps F m) := by
    rw [h0, l0]; split <;> decide
  have i3 : nopsAtLevel (!m.portBit) (zeroSteps F m)
      < nopsAtLevel (!m.portBit) (oneSteps F m) := by
    rw [h0, h1]; split <;> decide
  have i4 : nopsAtLevel m.portBit (oneSteps F m) < nopsAtLevel m.portBit (zeroSteps F m) := by
    rw [l1, l0]; split <;> decide
  refine ⟨?_, ?_, i1, i2, i3, i4, ?_, ?_, ?_, ?_⟩
  · rw [h1, l1]; exact e1
  · rw [h0, l0]; exact e0
  · intro h; rw [h1, l1, h0, l0]; simp [h]
  · intro h; rw [h1, l1, h0, l0]; simp [h]
  · intro h
    rw [h] at i1 i2 i3 i4
    exact ⟨i1, i2, i3, i4⟩
  · intro h
    rw [h] at i1 i2 i3 i4
    exact ⟨i1, i2, i3, i4⟩

theorem bit_phase_lengths_witness :
    (nopsAtLevel false (oneSteps 16000000 ⟨[], true, true, false, []⟩)
        < nopsAtLevel true (oneSteps 16000000 ⟨[], true, true, false, []⟩) ∧
      nopsAtLevel true (zeroSteps 16000000 ⟨[], true, true, false, []⟩)
        < nopsAtLevel false (zeroSteps 16000000 ⟨[], true, true, false, []⟩) ∧
      nopsAtLevel true (zeroSteps 16000000 ⟨[], true, true, false, []⟩)
        < nopsAtLevel true (oneSteps 16000000 ⟨[], true, true, false, []⟩) ∧
      nopsAtLevel false (oneSteps 16000000 ⟨[], true, true, false, []⟩)
        < nopsAtLevel false (zeroSteps 16000000 ⟨[], true, true, false, []⟩)) ∧
    (nopsAtLevel true (oneSteps 8000000 ⟨[], true, true, true, []⟩)
        < nopsAtLevel false (oneSteps 8000000 ⟨[], true, true, true, []⟩) ∧
      nopsAtLevel false (zeroSteps 8000000 ⟨[], true, true, true, []⟩)
        < nopsAtLevel true (zeroSteps 8000000 ⟨[], true, true, true, []⟩) ∧
      nopsAtLevel false (zeroSteps 8000000 ⟨[], true, true, true, []⟩)
        < nopsAtLevel false (oneSteps 8000000 ⟨[], true, true, true, []⟩) ∧
      nopsAtLevel true (oneSteps 8000000 ⟨[], true, true, true, []⟩)
        < nopsAtLevel true (zeroSteps 8000000 ⟨[], true, true, true, []⟩)) :=
  ⟨(bit_phase_lengths 16000000 ⟨[], true, true, false, []⟩ (Or.inr rfl)).2.2.2.2.2.2.2.2.1 rfl,
   (bit_phase_lengths 8000000 ⟨[], true, true, true, []⟩ (Or.inl rfl)).2.2.2.2.2.2.2.2.2 rfl⟩

theorem delaySlots_twoPhase (f lvl : Bool) (a b : Nat) :
    delaySlots (twoPhase f lvl a b) = a + b := by
  unfold delaySlots twoPhase
  simp only [List.filter_append, List.length_append, List.filter_replicate]
  simp

theorem pulse_steps_closed (m : Machine) :
    oneSteps 8000000 m = twoPhase m.sregI m.portBit 5 0 ∧
    zeroSteps 8000000 m = twoPhase m.sregI m.portBit 1 4 ∧
    oneSteps 16000000 m = twoPhase m.sregI m.portBit 9 0 ∧
    zeroSteps 16000000 m = twoPhase m.sregI m.portBit 3 5 := by
  have h8 := phase_counts 8000000 (Or.inl rfl) m
  have h16 := phase_counts 16000000 (Or.inr rfl) m
  refine ⟨?_, ?_, ?_, ?_⟩
  · have := h8.1
    rwa [if_neg (by decide)] at this
  · have := h8.2.1
    rwa [if_neg (by decide), if_neg (by decide)] at this
  · have := h16.1
    rwa [if_pos rfl] at this
  · have := h16.2.1
    rwa [if_pos rfl, if_pos rfl] at this

/-- C12, as stated, fails: at 16 MHz a 1 bit issues 11 pin-toggle and no-op
instructions (2 toggles and 9 delay slots) and a 0 bit issues 10 (2 toggles
and 8 delay slots). -/
theorem bit_instruction_totals_differ_at_16MHz :
    (oneSteps 16000000 ⟨[], true, true, false, []⟩).length = 11 ∧
    (zeroSteps 16000000 ⟨[], true, true, false, []⟩).length = 10 ∧
    (oneSteps 16000000 ⟨[], true, true, false, []⟩).length
      ≠ (zeroSteps 16000000 ⟨[], true, true, false, []⟩).length ∧
    toggles (oneSteps 16000000 ⟨[], true, true, false, []⟩) = 2 ∧
    delaySlots (oneSteps 16000000 ⟨[], true, true, false, []⟩) = 9 ∧
    toggles (zeroSteps 16000000 ⟨[], true, true, false, []⟩) = 2 ∧
    delaySlots (zeroSteps 16000000 ⟨[], true, true, false, []⟩) = 8 := by
  refine ⟨by decide, by decide, by decide, by decide, by decide, by decide, by decide⟩

/-- C12, amended: at 8 MHz the number of pin-toggle and no-op instructions
issued for a 1 bit equals the number issued for a 0 bit, 7 each, 2 toggles and
5 no-ops; at 16 MHz a 1 bit issues 11, 2 toggles and 9 no-ops, and a 0 bit
issues 10, 2 toggles and 8 no-ops.  Every instruction issued is a toggle or a
no-op, so each total is the sum of the two counts. -/
theorem bit_instruction_totals (m : Machine) :
    ((oneSteps 8000000 m).length = 7 ∧ toggles (oneSteps 8000000 m) = 2 ∧
      delaySlots (oneSteps 8000000 m) = 5) ∧
    ((zeroSteps 8000000 m).length = 7 ∧ toggles (zeroSteps 8000000 m) = 2 ∧
      delaySlots (zeroSteps 8000000 m) = 5) ∧
    (oneSteps 8000000 m).length = (zeroSteps 8000000 m).length ∧
    ((oneSteps 16000000 m).length = 11 ∧ toggles (oneSteps 16000000 m) = 2 ∧
      delaySlots (oneSteps 16000000 m) = 9) ∧
    ((zeroSteps 16000000 m).length = 10 ∧ toggles (zeroSteps 16000000 m) = 2 ∧
      delaySlots (zeroSteps 16000000 m) = 8) ∧
    (oneSteps 16000000 m).length = (zeroSteps 16000000 m).length + 1 ∧
    (∀ F : Nat,
      (oneSteps F m).length = toggles (oneSteps F m) + delaySlots (oneSteps F m) ∧
      (zeroSteps F m).length = toggles (zeroSteps F m) + delaySlots (zeroSteps F m)) := by
  obtain ⟨e81, e80, e161, e160⟩ := pulse_steps_closed m
  have a : (oneSteps 8000000 m).length = 7 := by
    rw [oneSteps_eq, stepsOf_length]; rfl
  have b : (zeroSteps 8000000 m).length = 7 := by
    rw [zeroSteps_eq, stepsOf_length]; rfl
  have c : (oneSteps 16000000 m).length = 11 := by
    rw [oneSteps_eq, stepsOf_length]; rfl
  have d : (zeroSteps 16000000 m).length = 10 := by
    rw [zeroSteps_eq, stepsOf_length]; rfl
  have split : ∀ l : List Step, l.length = toggles l + delaySlots l := by
    intro l
    induction l with
    | nil => rfl
    | cons st t ih =>
      obtain ⟨i, f, lv⟩ := st
      cases i <;> simp [toggles, delaySlots, List.filter_cons] at ih ⊢ <;> omega
  refine ⟨⟨a, ?_, ?_⟩, ⟨b, ?_, ?_⟩, by rw [a, b], ⟨c, ?_, ?_⟩, ⟨d, ?_, ?_⟩, by rw [c, d],
    fun F => ⟨split _, split _⟩⟩
  · rw [e81]; exact toggles_twoPhase _ _ _ _
  · rw [e81]; exact delaySlots_twoPhase _ _ _ _
  · rw [e80]; exact toggles_twoPhase _ _ _ _
  · rw [e80]; exact delaySlots_twoPhase _ _ _ _
  · rw [e161]; exact toggles_twoPhase _ _ _ _
  · rw [e161]; exact delaySlots_twoPhase _ _ _ _
  · rw [e160]; exact toggles_twoPhase _ _ _ _
  · rw [e160]; exact delaySlots_twoPhase _ _ _ _

/-! ## Pin level and buffer across a transmission -/

theorem stepsOf_pulse_append (F : Nat) (f lvl bit : Bool) (rest : List Instr) :
    stepsOf f lvl (pulse F bit ++ rest) =
      stepsOf f lvl (pulse F bit) ++ stepsOf f lvl rest := by
  by_cases h16 : F = 16000000
  · subst h16
    cases bit <;> simp [pulse, stepsOf, List.replicate]
  · by_cases h8 : F = 8000000
    · subst h8
      cases bit <;> simp [pulse, stepsOf, List.replicate]
    · simp [pulse, h16, h8, stepsOf]

theorem stepsOf_flatMap_pulse (F : Nat) (f lvl : Bool) (bits : List Bool) :
    stepsOf f lvl (bits.flatMap (pulse F)) =
      bits.flatMap (fun bit => stepsOf f lvl (pulse F bit)) := by
  induction bits with
  | nil => rfl
  | cons b t ih =>
    rw [List.flatMap_cons, List.flatMap_cons, stepsOf_pulse_append, ih]

theorem exec_pulse_portBit (F : Nat) (bit : Bool) (m : Machine) :
    (exec (pulse F bit) m).portBit = m.portBit := by
  by_cases h16 : F = 16000000
  · subst h16
    cases bit <;> simp [pulse, exec, List.replicate, togglePin, nop]
  · by_cases h8 : F = 8000000
    · subst h8
      cases bit <;> simp [pulse, exec, List.replicate, togglePin, nop]
    · simp [pulse, h16, h8, exec]

theorem exec_flatMap_pulse_portBit (F : Nat) (bits : List Bool) :
    ∀ m : Machine, (exec (bits.flatMap (pulse F)) m).portBit = m.portBit := by
  induction bits with
  | nil => intro m; rfl
  | cons b t ih =>
    intro m
    rw [List.flatMap_cons, exec_append, ih, exec_pulse_portBit]

theorem frameInstrs_eq_frameBits (F n : Nat) (m : Machine) :
    frameInstrs F n m = (frameBits n m).flatMap (pulse F) := by
  unfold frameInstrs frameBits
  rw [List.flatMap_assoc]

theorem frameBits_eq_wireBits (n : Nat) (m : Machine) (hn : LedCountOk n) :
    frameBits n m = wireBits n m := by
  unfold frameBits wireBits
  rw [numBytes_eq n hn, range_three_mul_flatMap]
  simp only [getColor]

theorem commit_portBit (F n : Nat) (m : Machine) : (commit F n m).portBit = m.portBit := by
  rw [commit_eq, frameInstrs_eq_frameBits]
  exact exec_flatMap_pulse_portBit F _ _

theorem commit_dataBytes (F n : Nat) (m : Machine) :
    (commit F n m).dataBytes = m.dataBytes := by
  rw [commit_eq]
  exact (exec_frame _ _).1

theorem toggles_append (a b : List Step) : toggles (a ++ b) = toggles a + toggles b := by
  unfold toggles
  rw [List.filter_append, List.length_append]

theorem toggles_flatMap_pulse (F : Nat) (hF : SupportedClock F) (f lvl : Bool)
    (bits : List Bool) :
    toggles (bits.flatMap (fun bit => stepsOf f lvl (pulse F bit))) = 2 * bits.length := by
  induction bits with
  | nil => rfl
  | cons b t ih =>
    rw [List.flatMap_cons, toggles_append, ih, stepsOf_pulse F hF, toggles_twoPhase,
      List.length_cons]
    omega

theorem toggle_levels_twoPhase (f lvl : Bool) (a b : Nat) :
    ((twoPhase f lvl a b).filter (fun st => st.instr == Instr.sbi)).map Step.level
      = [!lvl, lvl] := by
  unfold twoPhase
  simp only [List.filter_append, List.filter_replicate]
  simp

/-- C17: for every buffer contents, every LED count `n` with `3 * n < 256` and
both clock rates, `commit()` toggles the pin exactly twice per bit sent,
`48 * n` times in all, and the pin level on return is the level on entry;
every bit is a toggle away from the entry level followed by a toggle back to
it, so from a low pin each bit goes low-to-high then high-to-low, and from a
high pin each pulse is inverted. -/
theorem commit_toggles_twice_per_bit (F n : Nat) (m : Machine) (hF : SupportedClock F)
    (hn : LedCountOk n) (hm : BufferOk n m) :
    toggles (emitted m (commit F n m)) = 2 * (wireBits n m).length ∧
    toggles (emitted m (commit F n m)) = 48 * n ∧
    toggles (emitted m (commit F n m)) = 16 * m.dataBytes.length ∧
    (commit F n m).portBit = m.portBit ∧
    emitted m (commit F n m)
      = (wireBits n m).flatMap (fun bit => stepsOf false m.portBit (pulse F bit)) ∧
    (∀ bit : Bool,
      toggles (stepsOf false m.portBit (pulse F bit)) = 2 ∧
      ((stepsOf false m.portBit (pulse F bit)).filter
        (fun st => st.instr == Instr.sbi)).map Step.level = [!m.portBit, m.portBit]) ∧
    (m.portBit = false → ∀ bit : Bool,
      ((stepsOf false m.portBit (pulse F bit)).filter
        (fun st => st.instr == Instr.sbi)).map Step.level = [true, false]) ∧
    (m.portBit = true → ∀ bit : Bool,
      ((stepsOf false m.portBit (pulse F bit)).filter
        (fun st => st.instr == Instr.sbi)).map Step.level = [false, true]) := by
  have he : emitted m (commit F n m)
      = (wireBits n m).flatMap (fun bit => stepsOf false m.portBit (pulse F bit)) := by
    rw [emitted_commit, frameInstrs_eq_frameBits, frameBits_eq_wireBits n m hn,
      stepsOf_flatMap_pulse]
  have ht : toggles (emitted m (commit F n m)) = 2 * (wireBits n m).length := by
    rw [he, toggles_flatMap_pulse F hF]
  have hl := wireBits_length n m
  have hlev : ∀ bit : Bool,
      ((stepsOf false m.portBit (pulse F bit)).filter
        (fun st => st.instr == Instr.sbi)).map Step.level = [!m.portBit, m.portBit] := by
    intro bit
    rw [stepsOf_pulse F hF, toggle_levels_twoPhase]
  refine ⟨ht, by rw [ht, hl]; omega, by rw [ht, hl, hm.1]; omega, commit_portBit F n m, he,
    ?_, ?_, ?_⟩
  · intro bit
    exact ⟨by rw [stepsOf_pulse F hF, toggles_twoPhase], hlev bit⟩
  · intro h bit
    have := hlev bit
    rw [h] at this ⊢
    exact this
  · intro h bit
    have := hlev bit
    rw [h] at this ⊢
    exact this

theorem commit_toggles_twice_per_bit_witness :
    LedCountOk 85 ∧
    toggles (emitted ⟨List.replicate 255 170, true, true, true, []⟩
      (commit 8000000 85 ⟨List.replicate 255 170, true, true, true, []⟩)) = 48 * 85 ∧
    (commit 8000000 85 ⟨List.replicate 255 170, true, true, true, []⟩).portBit = true := by
  have hn : LedCountOk 85 := by unfold LedCountOk; decide
  have hb : BufferOk 85 ⟨List.replicate 255 170, true, true, true, []⟩ :=
    ⟨List.length_replicate 255 170, fun v hv => by
      rw [List.eq_of_mem_replicate hv]; decide⟩
  have h := commit_toggles_twice_per_bit 8000000 85
    ⟨List.replicate 255 170, true, true, true, []⟩ (Or.inl rfl) hn hb
  exact ⟨hn, h.2.1, h.2.2.2.1⟩

/-- C18: `commit()` leaves the colour buffer as it was, so `getColor(i)` after
`commit()` equals `getColor(i)` before it, and a second `commit()` issues the
same bit sequence, instruction for instruction, as the first. -/
theorem commit_leaves_buffer (F n : Nat) (m : Machine) :
    (commit F n m).dataBytes = m.dataBytes ∧
    (∀ i : Nat, getColor (commit F n m) i = getColor m i) ∧
    frameBits n (commit F n m) = frameBits n m ∧
    wireBits n (commit F n m) = wireBits n m ∧
    (emitted (commit F n m) (commit F n (commit F n m))).map Step.instr
      = (emitted m (commit F n m)).map Step.instr ∧
    emitted (commit F n m) (commit F n (commit F n m)) = emitted m (commit F n m) := by
  have hd := commit_dataBytes F n m
  have hf : frameInstrs F n (commit F n m) = frameInstrs F n m := by
    unfold frameInstrs
    rw [hd]
  have hs : emitted (commit F n m) (commit F n (commit F n m)) = emitted m (commit F n m) := by
    rw [emitted_commit, emitted_commit, commit_portBit, hf]
  refine ⟨hd, ?_, ?_, ?_, by rw [hs], hs⟩
  · intro i
    unfold getColor
    rw [hd]
  · unfold frameBits
    rw [hd]
  · unfold wireBits getColor
    rw [hd]

end ExWS2812
